import Mathlib

/-!
Shallow embedding of the SerinDB storage and transaction core
(crates serin_txn and serin_storage), together with proofs of the
specification's claims about it.

Conventions used throughout:
* Rust `u8`/`u32`/`u64` values are modelled as `Nat`; where the source
  performs a truncating cast (`as u32`) the model takes `% 2 ^ 32`
  explicitly.  Rust `i64` values are modelled as `Int`; two's-complement
  bit patterns are taken mod `2 ^ 64` where the source manipulates bits.
* `HashMap` is modelled as an association list with overwrite-on-insert
  semantics (`mapInsert`) and first-match lookup (`mapFind`).
* Files and in-memory byte buffers are `List Nat` (bytes).
-/

namespace SerinDB

/-! ### Association-list model of `std::collections::HashMap` -/

/-- Overwrite-insert for the association-list map model: the new binding
shadows (and removes) any previous binding of the same key, mirroring
`HashMap::insert`. -/
def mapInsert {α β : Type} [DecidableEq α] (m : List (α × β)) (k : α) (v : β) :
    List (α × β) :=
  (k, v) :: m.filter (fun p => ¬ p.1 = k)

/-- Lookup in the association-list map model, mirroring `HashMap::get`. -/
def mapFind {α β : Type} [DecidableEq α] (m : List (α × β)) (k : α) : Option β :=
  (m.find? (fun p => p.1 = k)).map Prod.snd

/-! ### MVCC records — `serin_txn/src/lib.rs` -/

/-- `VersionedTuple<T>`: a record version stored in MVCC storage.
`min_ts` is the begin timestamp (inclusive), `max_ts` the end timestamp
(exclusive); `u64` timestamps are modelled as `Nat`. -/
structure VersionedTuple (T : Type) where
  min_ts : Nat
  max_ts : Nat
  value : T

/-- `VersionedTuple::visible_at`: `self.min_ts <= snap_ts && snap_ts < self.max_ts`. -/
def VersionedTuple.visible_at {T : Type} (v : VersionedTuple T) (snap_ts : Nat) : Bool :=
  decide (v.min_ts ≤ snap_ts) && decide (snap_ts < v.max_ts)

/-! ### Lock manager — `serin_txn/src/lock.rs` -/

/-- `TxnId(pub u64)`. -/
structure TxnId where
  id : Nat
deriving DecidableEq, Repr

/-- Hierarchical lock modes IS / IX / S / X. -/
inductive LockMode where
  | IS
  | IX
  | S
  | X
deriving DecidableEq, Repr

/-- `LockMode::compatible`, translated literally from the source:

```rust
matches!((self, other),
    (IS, IS) | (IS, S) | (S, IS) | (IX, IX) if false) // fallback
|| match (self, other) {
    (IS, IS) | (IS, S) | (S, IS) | (S, S) => true,
    _ => false,
}
```

The first `matches!` carries the guard `if false`, so it yields `false` on
every input (the guarded arm never fires and the implicit fallback arm of
`matches!` is `false`); it is kept here as a literal `false` disjunct so
the translation matches the source shape. -/
def LockMode.compatible (a b : LockMode) : Bool :=
  false
  || (match (a, b) with
      | (.IS, .IS) | (.IS, .S) | (.S, .IS) | (.S, .S) => true
      | _ => false)

/-- Modelled from the spec: the compatibility matrix of §3 of the
specification (IS row: ✓ ✓ ✓ ✗; IX row: ✓ ✓ ✗ ✗; S row: ✓ ✗ ✓ ✗;
X row: ✗ ✗ ✗ ✗).  This definition follows the spec's words, not the
source, and exists only to be compared against `LockMode.compatible`. -/
def specLockCompatible (a b : LockMode) : Bool :=
  match (a, b) with
  | (.IS, .IS) | (.IS, .IX) | (.IS, .S) => true
  | (.IX, .IS) | (.IX, .IX) => true
  | (.S, .IS) | (.S, .S) => true
  | _ => false

/-- `LockEntry`: per-resource granted list (`Vec`) and waiting queue
(`VecDeque`, head at the front of the list). -/
structure LockEntry where
  granted : List (TxnId × LockMode)
  waiting : List (TxnId × LockMode)
deriving DecidableEq, Repr

/-- `LockEntry::default()`. -/
def LockEntry.default : LockEntry := ⟨[], []⟩

/-- The lock table: `HashMap<String, LockEntry>` keyed by resource id. -/
abbrev LockTable : Type := List (String × LockEntry)

/-- `DeadlockError(pub TxnId)`. -/
structure DeadlockError where
  txn : TxnId
deriving DecidableEq, Repr

/-- The wait-for edges used by `detect_deadlock`: for every lock entry
whose waiting queue is non-empty, an edge from the front waiter to every
current holder of the resource. -/
def wfgEdges (tbl : LockTable) : List (TxnId × TxnId) :=
  tbl.flatMap (fun e =>
    match e.2.waiting.head? with
    | some w => e.2.granted.map (fun h => (w.1, h.1))
    | none => [])

/-- The adjacency map built by `detect_deadlock`
(`HashMap<TxnId, HashSet<TxnId>>`): graph.entry(front).or_default().extend(holders).
Neighbour sets are represented as duplicate-free lists. -/
def wfGraph (tbl : LockTable) : List (TxnId × List TxnId) :=
  tbl.foldl (fun g e =>
    match e.2.waiting.head? with
    | some w =>
        let holders := e.2.granted.map Prod.fst
        match mapFind g w.1 with
        | some old => mapInsert g w.1 ((old ++ holders.filter (fun h => ¬ h ∈ old)).eraseDups)
        | none => mapInsert g w.1 holders.eraseDups
    | none => g) []

/-- The BFS loop of `detect_deadlock`, with explicit fuel.  Each loop
iteration pops one queue element; an element is expanded (its neighbours
pushed) at most once thanks to the visited set, so the total number of
iterations is bounded by the initial queue plus the total neighbour-list
length plus the node count; callers pass fuel at least that large. -/
def bfsReachesStart (graph : List (TxnId × List TxnId)) (start : TxnId) :
    Nat → List TxnId → List TxnId → Bool
  | 0, _, _ => false
  | _ + 1, [], _ => false
  | fuel + 1, txn :: queue, visited =>
      if txn ∈ visited then
        bfsReachesStart graph start fuel queue visited
      else
        let neigh := (mapFind graph txn).getD []
        if start ∈ neigh then true
        else bfsReachesStart graph start fuel (queue ++ neigh) (txn :: visited)

/-- `LockManager::detect_deadlock`: build the wait-for graph and search
for a cycle back to `start` by BFS. -/
def detectDeadlock (tbl : LockTable) (start : TxnId) : Bool :=
  let graph := wfGraph tbl
  let fuel := 1 + graph.length + (graph.map (fun p => p.2.length)).sum
  bfsReachesStart graph start (fuel + 1) [start] []

/-- `LockManager::unlock_wait`: remove `txn` from the waiting queue of
resource `res` (if the resource has an entry). -/
def unlockWait (tbl : LockTable) (txn : TxnId) (res : String) : LockTable :=
  match mapFind tbl res with
  | some e => mapInsert tbl res { e with waiting := e.waiting.filter (fun p => ¬ p.1 = txn) }
  | none => tbl

/-- `LockManager::lock`: grant immediately when the requested mode is
compatible with every granted mode; otherwise enqueue at the tail of the
waiting queue and run deadlock detection, cancelling the wait and
returning `DeadlockError(txn)` when a cycle is found.  Returns the result
together with the new lock table. -/
def lockAcquire (tbl : LockTable) (txn : TxnId) (res : String) (mode : LockMode) :
    Except DeadlockError Unit × LockTable :=
  let entry := (mapFind tbl res).getD LockEntry.default
  if entry.granted.all (fun g => g.2.compatible mode) then
    (Except.ok (), mapInsert tbl res { entry with granted := entry.granted ++ [(txn, mode)] })
  else
    let tbl1 := mapInsert tbl res { entry with waiting := entry.waiting ++ [(txn, mode)] }
    if detectDeadlock tbl1 txn then
      (Except.error ⟨txn⟩, unlockWait tbl1 txn res)
    else
      (Except.ok (), tbl1)

/-- `LockManager::release_all`: remove `txn` from both the granted and
waiting lists of every resource. -/
def releaseAll (tbl : LockTable) (txn : TxnId) : LockTable :=
  tbl.map (fun e =>
    (e.1, { granted := e.2.granted.filter (fun p => ¬ p.1 = txn),
            waiting := e.2.waiting.filter (fun p => ¬ p.1 = txn) }))

/-! ### Transaction coordinator — `serin_txn/src/txn.rs` -/

/-- Transaction status. -/
inductive TxnStatus where
  | Active
  | Prepared
  | Committed
  | Aborted
deriving DecidableEq, Repr

/-- `PrepareRecord { txn_id, commit_ts }`. -/
structure PrepareRecord where
  txn_id : TxnId
  commit_ts : Nat
deriving DecidableEq, Repr

/-- The `statuses` map of `TxnManager` (`HashMap<TxnId, TxnStatus>`). -/
abbrev StatusMap : Type := List (TxnId × TxnStatus)

/-- `TxnManager::recover`: mark every transaction appearing in the given
prepare records as Committed. -/
def recover (statuses : StatusMap) (prepare_records : List PrepareRecord) : StatusMap :=
  prepare_records.foldl (fun st rec => mapInsert st rec.txn_id TxnStatus.Committed) statuses

/-- `TxnManager::status` as a total lookup (the source `unwrap`s the
`Option`; the claims only ever query ids that are present). -/
def statusOf (statuses : StatusMap) (txn : TxnId) : Option TxnStatus :=
  mapFind statuses txn

/-- `TxnManager::prepare` acting on the statuses map: the transaction is
marked Prepared and a `PrepareRecord` carrying a fresh commit timestamp is
returned. -/
def prepareTxn (statuses : StatusMap) (txn : TxnId) (ts : Nat) :
    PrepareRecord × StatusMap :=
  (⟨txn, ts⟩, mapInsert statuses txn TxnStatus.Prepared)

/-! ### Byte-level encoding helpers -/

/-- Little-endian byte encoding of a natural number into `w` bytes
(the value is reduced modulo `256 ^ w` by construction), as produced by
`u32::to_le_bytes` / `u64::to_le_bytes`. -/
def leBytes : Nat → Nat → List Nat
  | 0, _ => []
  | w + 1, n => n % 256 :: leBytes w (n / 256)

/-- Little-endian byte decoding, as performed by `u32::from_le_bytes` /
`u64::from_le_bytes`. -/
def leDecode : List Nat → Nat
  | [] => 0
  | b :: bs => b + 256 * leDecode bs

/-- The two's-complement byte representation of an `i64`, little-endian
(`repr(C)` on a little-endian target). -/
def int64Bytes (t : Int) : List Nat :=
  leBytes 8 (t % (2 ^ 64 : Int)).toNat

/-! ### Write-ahead log — `serin_storage/src/wal.rs` -/

/-- The 16 raw bytes of `WalHeader { len: u32, ts: i64 }` under `repr(C)`:
4 bytes of `len` (the payload length truncated to `u32`), 4 padding bytes
(modelled as zero; the replay side never reads them), then 8 bytes of the
timestamp. -/
def walHeaderBytes (ts : Int) (payloadLen : Nat) : List Nat :=
  leBytes 4 (payloadLen % 2 ^ 32) ++ [0, 0, 0, 0] ++ int64Bytes ts

/-- The bytes `WalWriter::append` adds to the group-commit buffer for one
record: header followed by payload. -/
def walRecordBytes (ts : Int) (payload : List Nat) : List Nat :=
  walHeaderBytes ts payload.length ++ payload

/-- The observable state of a `WalWriter`: the bytes already written to the
log file, the not-yet-flushed buffer, and the buffer limit. -/
structure WalState where
  file : List Nat
  buffer : List Nat
  buffer_limit : Nat

/-- `WalWriter::open` on a fresh path: empty file, empty buffer. -/
def walOpen (buffer_limit : Nat) : WalState :=
  ⟨[], [], buffer_limit⟩

/-- `WalWriter::flush`: an empty buffer is a no-op; otherwise the buffer is
appended to the file (one write plus fsync) and cleared. -/
def walFlush (w : WalState) : WalState :=
  if w.buffer = [] then w
  else { w with file := w.file ++ w.buffer, buffer := [] }

/-- `WalWriter::append`: extend the buffer with header and payload, then
flush implicitly once the buffer length reaches the limit (group commit).
The timestamp is the clock value sampled by the writer, passed explicitly
here. -/
def walAppend (w : WalState) (ts : Int) (payload : List Nat) : WalState :=
  let w2 := { w with buffer := w.buffer ++ walRecordBytes ts payload }
  if w2.buffer_limit ≤ w2.buffer.length then walFlush w2 else w2

/-- `iter_log`: parse the log file front to back.  A short read while
filling the 16-byte header terminates cleanly; a payload shorter than its
declared length is an error (`CorruptLog`). -/
def iterLog (bytes : List Nat) : Except Unit (List (List Nat)) :=
  if _h : bytes.length < 16 then Except.ok []
  else
    let len := leDecode (bytes.take 4)
    if bytes.length - 16 < len then Except.error ()
    else
      match iterLog (bytes.drop (16 + len)) with
      | Except.ok rest => Except.ok ((bytes.drop 16).take len :: rest)
      | Except.error e => Except.error e
termination_by bytes.length
decreasing_by
  simp only [List.length_drop]
  omega

/-! ### Buffer pool — `serin_storage/src/buffer.rs` -/

/-- `BufferFrame` metadata.  The source also carries the boxed 16 KiB data
buffer, which `buffer.rs` allocates zero-filled and never reads or writes
afterwards (`pin_count` is likewise never incremented: the file has no
unpin), so only the metadata is modelled. -/
structure BufferFrame where
  page_id : Nat
  pin_count : Nat
  is_dirty : Bool
  clock_ref : Bool
deriving DecidableEq, Repr

/-- `BufferFrame::new`. -/
def BufferFrame.new (page_id : Nat) : BufferFrame :=
  ⟨page_id, 0, false, false⟩

/-- The 2Q buffer pool: capacity, `Am` LRU list, `A1in` FIFO, `A1out`
ghost list (fronts of the `VecDeque`s are heads of the lists), and the
`PageId -> frame` map. -/
structure BufferPool where
  capacity : Nat
  am : List Nat
  a1In : List Nat
  a1Out : List Nat
  frames : List (Nat × BufferFrame)
deriving DecidableEq, Repr

/-- `BufferPool::new`. -/
def BufferPool.new (capacity : Nat) : BufferPool :=
  ⟨capacity, [], [], [], []⟩

/-- `BufferPool::touch`: on a hit, move the page to the front of `Am`
(from `Am` itself or promoted out of `A1in`).  `VecDeque::remove` at the
first matching position is `List.erase`. -/
def BufferPool.touch (s : BufferPool) (page_id : Nat) : BufferPool :=
  if page_id ∈ s.am then { s with am := page_id :: s.am.erase page_id }
  else if page_id ∈ s.a1In then
    { s with a1In := s.a1In.erase page_id, am := page_id :: s.am }
  else s

/-- `BufferPool::ensure_capacity`: nothing to do below capacity; otherwise
evict the tail of `A1in` (recording the ghost id in `A1out`), or failing
that the tail of `Am`.  `evict` removes the id from the frame map (the
source does not flush dirty frames — its comment defers that to
production). -/
def BufferPool.ensureCapacity (s : BufferPool) : BufferPool :=
  if s.frames.length < s.capacity then s
  else
    match s.a1In.getLast? with
    | some old =>
        { s with a1In := s.a1In.dropLast,
                 a1Out := old :: s.a1Out,
                 frames := s.frames.filter (fun q => ¬ q.1 = old) }
    | none =>
        match s.am.getLast? with
        | some old =>
            { s with am := s.am.dropLast,
                     frames := s.frames.filter (fun q => ¬ q.1 = old) }
        | none => s

/-- `BufferPool::fetch_page`: on a hit, touch the lists; on a miss, make
room, allocate a fresh frame, insert it into the map and push the id on
the front of `A1in`. -/
def BufferPool.fetchPage (s : BufferPool) (page_id : Nat) : BufferPool :=
  match mapFind s.frames page_id with
  | some _ => s.touch page_id
  | none =>
      let s1 := s.ensureCapacity
      { s1 with frames := mapInsert s1.frames page_id (BufferFrame.new page_id),
                a1In := page_id :: s1.a1In }

/-! ### LSM tree — `serin_storage/src/lsm.rs` -/

/-- The observable state of a `MemTable`: the skiplist contents as an
association list in skiplist (key-sorted) iteration order with unique
keys, plus the approximate byte-size counter maintained by `insert`. -/
structure MemTable where
  entries : List (List Nat × List Nat)
  size_bytes : Nat
deriving DecidableEq, Repr

/-- `MemTable::get`: exact-key lookup in the skiplist. -/
def MemTable.get (m : MemTable) (k : List Nat) : Option (List Nat) :=
  (m.entries.find? (fun e => e.1 = k)).map Prod.snd

/-- `MemTable::size`. -/
def MemTable.size (m : MemTable) : Nat :=
  m.size_bytes

/-- `SsTableWriter` entry format: `[key_len: u32][val_len: u32][key][val]`,
lengths truncated to `u32` by the `as u32` casts. -/
def sstEntryBytes (k v : List Nat) : List Nat :=
  leBytes 4 (k.length % 2 ^ 32) ++ leBytes 4 (v.length % 2 ^ 32) ++ k ++ v

/-- The entry-writing loop of `flush_to_path`: serialize each entry in
iteration order, recording `(key, starting offset)` for the index.  `off`
is the current stream position. -/
def sstEntriesAux : List (List Nat × List Nat) → Nat →
    List Nat × List (List Nat × Nat)
  | [], _ => ([], [])
  | (k, v) :: es, off =>
      let rest := sstEntriesAux es (off + (sstEntryBytes k v).length)
      (sstEntryBytes k v ++ rest.1, (k, off) :: rest.2)

/-- The index region: `(key_len, key, offset)` triples, the offset as a
little-endian `u64`. -/
def sstIndexBytes (idx : List (List Nat × Nat)) : List Nat :=
  idx.flatMap (fun e => leBytes 4 (e.1.length % 2 ^ 32) ++ e.1 ++ leBytes 8 e.2)

/-- `FOOTER_MAGIC`. -/
def FOOTER_MAGIC : Nat := 0x534B5950

/-- The full SSTable file written by `SsTableWriter::flush_to_path`:
entries, index, then the footer `[index_offset: u64][magic: u32]` where
`index_offset` is the stream position after the entries. -/
def sstFileBytes (mem : MemTable) : List Nat :=
  (sstEntriesAux mem.entries 0).1 ++
    sstIndexBytes (sstEntriesAux mem.entries 0).2 ++
    leBytes 8 (sstEntriesAux mem.entries 0).1.length ++
    leBytes 4 FOOTER_MAGIC

/-- `Read::read_exact` on the file at a given position: succeeds iff the
requested byte count is available from that position (a zero-byte read
always succeeds, as in Rust). -/
def sstReadExact (file : List Nat) (pos n : Nat) : Option (List Nat) :=
  if n ≤ file.length - pos then some ((file.drop pos).take n) else none

/-- The index-loading loop of `SsTableReader::open`: starting at
`index_offset`, read `(key_len, key, offset)` triples while the position
is below `file_len - 12`; any failing read aborts the open. -/
def sstParseIndex (file : List Nat) (pos : Nat) :
    Option (List (List Nat × Nat)) :=
  if _h : pos < file.length - 12 then
    match sstReadExact file pos 4 with
    | none => none
    | some klenB =>
        match sstReadExact file (pos + 4) (leDecode klenB) with
        | none => none
        | some key =>
            match sstReadExact file (pos + 4 + leDecode klenB) 8 with
            | none => none
            | some offB =>
                match sstParseIndex file (pos + 4 + leDecode klenB + 8) with
                | some rest => some ((key, leDecode offB) :: rest)
                | none => none
  else some []
termination_by file.length - pos
decreasing_by
  omega

/-- `SsTableReader`: the opened file plus the in-memory
`HashMap<key, offset>` index. -/
structure SsTableReader where
  file : List Nat
  index : List (List Nat × Nat)
deriving DecidableEq, Repr

/-- `SsTableReader::open`: validate the footer (length and magic), then
load the index into the hash map (later triples overwrite earlier ones,
as `HashMap::insert` does). -/
def sstOpen (file : List Nat) : Except Unit SsTableReader :=
  if file.length < 12 then Except.error ()
  else
    let idxOff := leDecode ((file.drop (file.length - 12)).take 8)
    let magic := leDecode ((file.drop (file.length - 4)).take 4)
    if ¬ magic = FOOTER_MAGIC then Except.error ()
    else
      match sstParseIndex file idxOff with
      | some triples =>
          Except.ok ⟨file, triples.foldl (fun m e => mapInsert m e.1 e.2) []⟩
      | none => Except.error ()

/-- `SsTableReader::get`: look the key up in the index, seek to the
offset, read `key_len` and `val_len`, skip the key bytes, read the value.
Every failing read yields `None`. -/
def SsTableReader.get (r : SsTableReader) (key : List Nat) : Option (List Nat) :=
  match mapFind r.index key with
  | none => none
  | some off =>
      match sstReadExact r.file off 4 with
      | none => none
      | some klB =>
          match sstReadExact r.file (off + 4) 4 with
          | none => none
          | some vlB =>
              match sstReadExact r.file (off + 8 + leDecode klB) (leDecode vlB) with
              | none => none
              | some val => some val

/-- `LsmTree`: memtable, readers newest-first, the directory (file id to
file bytes), the id counter and the flush threshold. -/
structure LsmTree where
  mem : MemTable
  sstables : List SsTableReader
  dir : List (Nat × List Nat)
  next_file_id : Nat
  flush_threshold : Nat
deriving DecidableEq, Repr

/-- `LsmTree::flush`: an empty-size memtable returns `Ok` immediately with
no effect; otherwise the memtable is serialized to a new SSTable file,
`next_file_id` is bumped, the memtable cleared, and a reader for the new
file is prepended.  A failing reader open surfaces after the file write,
id bump and clear have already happened, as in the source. -/
def LsmTree.flush (t : LsmTree) : Except Unit Unit × LsmTree :=
  if t.mem.size = 0 then (Except.ok (), t)
  else
    let bytes := sstFileBytes t.mem
    let t1 := { t with dir := mapInsert t.dir t.next_file_id bytes,
                       next_file_id := t.next_file_id + 1,
                       mem := ⟨[], 0⟩ }
    match sstOpen bytes with
    | Except.ok reader => (Except.ok (), { t1 with sstables := reader :: t1.sstables })
    | Except.error e => (Except.error e, t1)

/-- `seg` occupies positions `pos ..< pos + seg.length` of `file`. -/
def bytesAt (file : List Nat) (pos : Nat) (seg : List Nat) : Prop :=
  ∃ pre post, file = pre ++ seg ++ post ∧ pre.length = pos

/-! ### Time-series Gorilla codec — `serin_storage/src/timeseries.rs`

`i64` values are `Int`s; where the source performs wrapping machine
arithmetic (release-build `-`, `+`, `<<`) the model wraps through
`wrap64`.  `f64` values enter and leave the codec only through
`to_bits`/`from_bits`, so they are modelled directly as their 64-bit
patterns (`Nat` below `2 ^ 64`), which is also what the claim compares.
Bit streams (`BitVec<u8, Msb0>`) are `List Bool` in MSB-first order;
`into_vec` pads the final byte with zero bits, and the reader's
`get(cursor).copied().unwrap_or(false)` is an indexed lookup defaulting
to `false`. -/

/-- Wrap an integer into the `i64` range (two's complement). -/
def wrap64 (n : Int) : Int :=
  (n + 2 ^ 63) % 2 ^ 64 - 2 ^ 63

/-- The 64-bit two's-complement pattern of an `i64` (`as u64`). -/
def toBits64 (n : Int) : Nat :=
  (n % 2 ^ 64).toNat

/-- Reinterpret a 64-bit pattern as an `i64` (`as i64`). -/
def ofBits64 (n : Nat) : Int :=
  if n < 2 ^ 63 then (n : Int) else (n : Int) - 2 ^ 64

/-- `i64` left shift (wrapping, as `<<` is on a release build). -/
def shl64 (a : Int) (k : Nat) : Int :=
  wrap64 (a * 2 ^ k)

/-- `i64` arithmetic right shift (`>>` on a signed operand): floor
division by the power of two. -/
def asr64 (a : Int) (k : Nat) : Int :=
  Int.fdiv a (2 ^ k)

/-- `i64` bitwise xor through the bit patterns. -/
def xor64 (a b : Int) : Int :=
  ofBits64 (Nat.xor (toBits64 a) (toBits64 b))

/-- Helper for the bit length, with enough fuel for 64-bit inputs. -/
def bitLenAux : Nat → Nat → Nat
  | 0, _ => 0
  | fuel + 1, n => if n = 0 then 0 else bitLenAux fuel (n / 2) + 1

/-- `u64::leading_zeros` subtracted from 64, i.e. the bit length
(`64 - zz.leading_zeros()` in the source). -/
def u64Bits (n : Nat) : Nat :=
  bitLenAux 64 n

/-- Helper for `trailing_zeros` with enough fuel for 64-bit inputs. -/
def tzAux : Nat → Nat → Nat
  | 0, _ => 0
  | fuel + 1, n => if n % 2 = 1 then 0 else tzAux fuel (n / 2) + 1

/-- `u64::trailing_zeros` (64 for zero). -/
def trailingZeros64 (n : Nat) : Nat :=
  tzAux 64 n

/-- `BitBuffer::push_bits`: append the `bits` low bits of `value`,
most-significant first. -/
def pushBits (buf : List Bool) (value : Nat) (bits : Nat) : List Bool :=
  buf ++ (List.range bits).reverse.map (fun i => Nat.testBit value i)

/-- `BitVec::into_vec`: the stream padded with zero bits to a whole
number of bytes. -/
def padToBytes (bits : List Bool) : List Bool :=
  bits ++ List.replicate ((8 - bits.length % 8) % 8) false

/-- `ColumnChunk`: uncompressed timestamps (`i64`) and values (`f64` bit
patterns). -/
structure ColumnChunk where
  timestamps : List Int
  values : List Nat
deriving DecidableEq, Repr

/-- One iteration of the Gorilla timestamp encoder: compute the
delta-of-delta, zigzag it, and emit the control bit and variable-width
payload.  State: `(prev_ts, prev_delta, stream)`. -/
def tsEncodeStep (st : Int × Int × List Bool) (ts : Int) : Int × Int × List Bool :=
  let delta := wrap64 (ts - st.1)
  let delta_of_delta := wrap64 (delta - st.2.1)
  let zz := toBits64 (xor64 (shl64 delta_of_delta 1) (asr64 delta_of_delta 63))
  let buf :=
    if zz = 0 then st.2.2 ++ [false]
    else
      let buf1 := st.2.2 ++ [true]
      let bits := u64Bits zz
      if bits ≤ 12 then pushBits (pushBits buf1 0 2) zz 12
      else if bits ≤ 20 then pushBits (pushBits buf1 1 2) zz 20
      else if bits ≤ 32 then pushBits (pushBits buf1 2 2) zz 32
      else pushBits (pushBits buf1 3 2) zz 64
  (ts, delta, buf)

/-- One iteration of the Gorilla value encoder.  State:
`(prev_val_bits, prev_leading, prev_trailing, stream)`. -/
def valEncodeStep (st : Nat × Nat × Nat × List Bool) (vb : Nat) :
    Nat × Nat × Nat × List Bool :=
  let xor := Nat.xor st.1 vb
  if xor = 0 then (vb, st.2.1, st.2.2.1, st.2.2.2 ++ [false])
  else
    let leading := 64 - u64Bits xor
    let trailing := trailingZeros64 xor
    if st.2.1 ≤ leading ∧ st.2.2.1 ≤ trailing then
      let significant := 64 - st.2.1 - st.2.2.1
      (vb, st.2.1, st.2.2.1,
        pushBits (st.2.2.2 ++ [true, false]) (xor >>> st.2.2.1) significant)
    else
      let significant := 64 - leading - trailing
      (vb, leading, trailing,
        pushBits (pushBits (pushBits (st.2.2.2 ++ [true, true]) leading 6)
          (significant - 1) 6) (xor >>> trailing) significant)

/-- `CompressedChunk`. -/
structure CompressedChunk where
  base_ts : Int
  base_val : Nat
  ts_bits : List Bool
  val_bits : List Bool
  rows : Nat
deriving DecidableEq, Repr

/-- `CompressedChunk::from_chunk`.  The source asserts the chunk is
non-empty; the empty case is unreachable and modelled by a zero chunk. -/
def CompressedChunk.from_chunk (c : ColumnChunk) : CompressedChunk :=
  match c.timestamps, c.values with
  | t0 :: trest, v0 :: vrest =>
      let tsState := trest.foldl tsEncodeStep (t0, 0, [])
      let valState := vrest.foldl valEncodeStep (v0, 64, 0, [])
      ⟨t0, v0, padToBytes tsState.2.2, padToBytes valState.2.2.2,
        c.timestamps.length⟩
  | _, _ => ⟨0, 0, [], [], 0⟩

/-- `ColumnChunk::compress`. -/
def ColumnChunk.compress (c : ColumnChunk) : CompressedChunk :=
  CompressedChunk.from_chunk c

/-- `reader.get(cursor).copied().unwrap_or(false)`. -/
def bitsGet (bits : List Bool) (i : Nat) : Bool :=
  (bits.get? i).getD false

/-- `reader[pos .. pos+n].load_be`: big-endian load of `n` bits.  (The
source indexes the slice, which stays in range on streams the encoder
produced; out-of-range bits read as zero here.) -/
def loadBE (bits : List Bool) (pos n : Nat) : Nat :=
  (List.range n).foldl (fun acc i => acc * 2 + (if bitsGet bits (pos + i) then 1 else 0)) 0

/-- The timestamp decoding loop of `decompress`, producing the remaining
`rem` timestamps from the cursor position with the carried
`prev_ts`/`prev_delta`. -/
def tsDecodeLoop (bits : List Bool) : Nat → Nat → Int → Int → List Int
  | 0, _, _, _ => []
  | rem + 1, cursor, prev_ts, prev_delta =>
      if bitsGet bits cursor = false then
        let ts := wrap64 (prev_ts + prev_delta)
        ts :: tsDecodeLoop bits rem (cursor + 1) ts prev_delta
      else
        let tag := loadBE bits (cursor + 1) 2
        let nbits := if tag = 0 then 12 else if tag = 1 then 20
          else if tag = 2 then 32 else 64
        let v := loadBE bits (cursor + 3) nbits
        let val := ofBits64 v
        let decoded := xor64 (asr64 val 1) (- (val % 2))
        let delta := wrap64 (prev_delta + decoded)
        let ts := wrap64 (prev_ts + delta)
        ts :: tsDecodeLoop bits rem (cursor + 3 + nbits) ts delta

/-- The value decoding loop of `decompress`.  State: carried
`prev_val_bits`, `stored_leading`, `stored_trailing`. -/
def valDecodeLoop (bits : List Bool) : Nat → Nat → Nat → Nat → Nat → List Nat
  | 0, _, _, _, _ => []
  | rem + 1, cursor, prev, slead, strail =>
      if bitsGet bits cursor = false then
        prev :: valDecodeLoop bits rem (cursor + 1) prev slead strail
      else
        if bitsGet bits (cursor + 1) = false then
          let significant := 64 - slead - strail
          let xor := (loadBE bits (cursor + 2) significant <<< strail) % 2 ^ 64
          let curr := Nat.xor prev xor
          curr :: valDecodeLoop bits rem (cursor + 2 + significant) curr slead strail
        else
          let leading := loadBE bits (cursor + 2) 6
          let significant := loadBE bits (cursor + 8) 6 + 1
          let trailing := 64 - leading - significant
          let xor := (loadBE bits (cursor + 14) significant <<< trailing) % 2 ^ 64
          let curr := Nat.xor prev xor
          curr :: valDecodeLoop bits rem (cursor + 14 + significant) curr leading trailing

/-- `CompressedChunk::decompress`: the base row followed by the decoded
remaining rows. -/
def CompressedChunk.decompress (cc : CompressedChunk) : ColumnChunk :=
  ⟨cc.base_ts :: tsDecodeLoop cc.ts_bits (cc.rows - 1) 0 cc.base_ts 0,
   cc.base_val :: valDecodeLoop cc.val_bits (cc.rows - 1) 0 cc.base_val 64 0⟩

/-- The trace of pool states produced by a sequence of `fetch_page` calls,
initial state included. -/
def poolStates (s : BufferPool) : List Nat → List BufferPool
  | [] => [s]
  | p :: ps => s :: poolStates (s.fetchPage p) ps

/-- The inductive invariant of the buffer pool: positive capacity, no
duplicate frame keys, no id in two replacement lists, residence in the
frame map coincides with membership in `A1in ∪ Am`, and the frame count is
bounded by the capacity. -/
def PoolInv (s : BufferPool) : Prop :=
  1 ≤ s.capacity ∧
  (s.frames.map Prod.fst).Nodup ∧
  (s.a1In ++ s.am).Nodup ∧
  (∀ p, (mapFind s.frames p).isSome ↔ (p ∈ s.a1In ∨ p ∈ s.am)) ∧
  s.frames.length ≤ s.capacity

end SerinDB

namespace SerinDB

/-! ## Theorems -/

/-! ### Shared map-model lemmas -/

theorem mapFind_mapInsert_self {α β : Type} [DecidableEq α]
    (m : List (α × β)) (k : α) (v : β) : mapFind (mapInsert m k v) k = some v := by
  simp [mapFind, mapInsert, List.find?]

theorem mapFind_mapInsert_ne {α β : Type} [DecidableEq α]
    (m : List (α × β)) (k k' : α) (v : β) (h : k' ≠ k) :
    mapFind (mapInsert m k v) k' = mapFind (m.filter (fun p => ¬ p.1 = k)) k' := by
  have h2 : ¬ (k = k') := fun hk => h hk.symm
  simp [mapFind, mapInsert, List.find?_cons, h2]

theorem mapFind_filter_ne {α β : Type} [DecidableEq α]
    (m : List (α × β)) (k k' : α) (h : k' ≠ k) :
    mapFind (m.filter (fun p => ¬ p.1 = k)) k' = mapFind m k' := by
  have h2 : ¬ (k = k') := fun hk => h hk.symm
  induction m with
  | nil => rfl
  | cons p m ih =>
      by_cases hpk : p.1 = k
      · have hp : ¬ p.1 = k' := fun hh => h (by rw [← hh, hpk])
        simpa [mapFind, List.filter_cons, List.find?_cons, hpk, hp, h, h2] using ih
      · by_cases hp : p.1 = k'
        · simp [mapFind, List.filter_cons, List.find?_cons, hpk, hp, h, h2]
        · simpa [mapFind, List.filter_cons, List.find?_cons, hpk, hp, h, h2] using ih

/-- Inserting a fresh binding leaves other keys untouched. -/
theorem mapFind_mapInsert_of_ne {α β : Type} [DecidableEq α]
    (m : List (α × β)) (k k' : α) (v : β) (h : k' ≠ k) :
    mapFind (mapInsert m k v) k' = mapFind m k' := by
  rw [mapFind_mapInsert_ne m k k' v h, mapFind_filter_ne m k k' h]

/-! ### C1: recovery commits every prepared transaction -/

theorem recover_preserves_committed (statuses : StatusMap)
    (recs : List PrepareRecord) (t : TxnId)
    (h : statusOf statuses t = some TxnStatus.Committed) :
    statusOf (recover statuses recs) t = some TxnStatus.Committed := by
  induction recs generalizing statuses with
  | nil => simpa [recover] using h
  | cons r rs ih =>
      show statusOf (recover (mapInsert statuses r.txn_id TxnStatus.Committed) rs) t
          = some TxnStatus.Committed
      apply ih
      by_cases ht : t = r.txn_id
      · rw [ht]
        simpa [statusOf] using
          mapFind_mapInsert_self statuses r.txn_id TxnStatus.Committed
      · simpa [statusOf, mapFind_mapInsert_of_ne statuses r.txn_id t _ ht] using h

/-- C1: for every slice of `PrepareRecord`s passed to `TxnManager::recover`,
after `recover` returns, `status(r.txn_id)` is `Committed` for every record
`r` in the slice; in particular a transaction that reached Prepared before a
crash is Committed after recovery from its persisted `PrepareRecord`. -/
theorem recover_commits_all (statuses : StatusMap) (recs : List PrepareRecord)
    (r : PrepareRecord) (hr : r ∈ recs) :
    statusOf (recover statuses recs) r.txn_id = some TxnStatus.Committed := by
  induction recs generalizing statuses with
  | nil => cases hr
  | cons q rs ih =>
      show statusOf (recover (mapInsert statuses q.txn_id TxnStatus.Committed) rs) r.txn_id
          = some TxnStatus.Committed
      rcases List.mem_cons.mp hr with hr1 | hr1
      · apply recover_preserves_committed
        rw [hr1]
        simpa [statusOf] using mapFind_mapInsert_self statuses q.txn_id TxnStatus.Committed
      · exact ih (mapInsert statuses q.txn_id TxnStatus.Committed) hr1

/-- C1 witness: the spec's 2PC recovery scenario — a transaction that was
prepared (its `PrepareRecord` persisted) is Committed after a fresh
manager recovers from that record. -/
theorem recover_commits_all_witness :
    statusOf (recover [] [(prepareTxn [(⟨1⟩, TxnStatus.Active)] ⟨1⟩ 2).1])
      (⟨1⟩ : TxnId) = some TxnStatus.Committed := by
  exact recover_commits_all [] [(prepareTxn [(⟨1⟩, TxnStatus.Active)] ⟨1⟩ 2).1]
    (prepareTxn [(⟨1⟩, TxnStatus.Active)] ⟨1⟩ 2).1 (by simp)

/-! ### C2: MVCC visibility predicate -/

/-- C2: for every `VersionedTuple` (over any value type) and every
timestamp `t`, `visible_at` returns `true` iff `min_ts ≤ t` and
`t < max_ts`. -/
theorem visible_at_iff {T : Type} (v : VersionedTuple T) (t : Nat) :
    v.visible_at t = true ↔ (v.min_ts ≤ t ∧ t < v.max_ts) := by
  simp [VersionedTuple.visible_at]

/-! ### C3: lock-mode compatibility disagrees with the spec matrix -/

/-- C3 (code bug): the source's `LockMode::compatible` answers `false` for
the pair (IX, IX) (and, unlike the spec's matrix, for every pair involving
IX), because its first `matches!` — the only place the IX pairs appear — is
guarded by `if false` and never fires; the spec's matrix marks IX
compatible with IS and IX.  Consequently the second of two IX requests on
the same resource is not granted but enqueued. -/
theorem lockMode_compatible_ix_bug :
    LockMode.compatible LockMode.IX LockMode.IX = false ∧
    specLockCompatible LockMode.IX LockMode.IX = true ∧
    (lockAcquire (lockAcquire [] ⟨1⟩ "r" LockMode.IX).2 ⟨2⟩ "r" LockMode.IX).2 =
      [("r", ⟨[(⟨1⟩, LockMode.IX)], [(⟨2⟩, LockMode.IX)]⟩)] := by
  refine ⟨rfl, rfl, ?_⟩
  decide

/-! ### Byte-encoding lemmas -/

theorem leBytes_length (w n : Nat) : (leBytes w n).length = w := by
  induction w generalizing n with
  | zero => rfl
  | succ w ih => simp [leBytes, ih]

theorem leDecode_leBytes (w n : Nat) : leDecode (leBytes w n) = n % 256 ^ w := by
  induction w generalizing n with
  | zero => simp [leBytes, leDecode, Nat.mod_one]
  | succ w ih =>
      rw [pow_succ']
      rw [Nat.mod_mul]
      simp [leBytes, leDecode, ih]

theorem int64Bytes_length (t : Int) : (int64Bytes t).length = 8 := by
  simp [int64Bytes, leBytes_length]

theorem walHeaderBytes_length (ts : Int) (l : Nat) :
    (walHeaderBytes ts l).length = 16 := by
  simp [walHeaderBytes, leBytes_length, int64Bytes_length]

theorem walRecordBytes_length (ts : Int) (p : List Nat) :
    (walRecordBytes ts p).length = 16 + p.length := by
  simp [walRecordBytes, walHeaderBytes_length]

/-! ### C4: WAL append/flush/replay round trip -/

/-- One parsing step of `iter_log` over a well-formed record followed by
arbitrary bytes: the declared length is the payload length truncated to
`u32`, and the parser takes exactly that many bytes of payload. -/
theorem iterLog_cons (t : Int) (p rest : List Nat) :
    iterLog (walRecordBytes t p ++ rest) =
      match iterLog ((p ++ rest).drop (p.length % 2 ^ 32)) with
      | Except.ok l => Except.ok ((p ++ rest).take (p.length % 2 ^ 32) :: l)
      | Except.error e => Except.error e := by
  have hlen : (walRecordBytes t p ++ rest).length = 16 + p.length + rest.length := by
    simp [walRecordBytes_length]
  have htrunc : p.length % 2 ^ 32 ≤ p.length := Nat.mod_le _ _
  have hassoc : walRecordBytes t p ++ rest = walHeaderBytes t p.length ++ (p ++ rest) := by
    simp [walRecordBytes]
  rw [iterLog]
  rw [dif_neg (by omega)]
  have htake4 : (walRecordBytes t p ++ rest).take 4 = leBytes 4 (p.length % 2 ^ 32) := by
    rw [hassoc, walHeaderBytes]
    rw [List.append_assoc]
    rw [List.take_append_of_le_length (by simp [leBytes_length])]
    simp [leBytes_length]
  have hdecode : leDecode ((walRecordBytes t p ++ rest).take 4) = p.length % 2 ^ 32 := by
    rw [htake4, leDecode_leBytes]
    have h2 : (256 : Nat) ^ 4 = 2 ^ 32 := by norm_num
    rw [h2]
    exact Nat.mod_mod_of_dvd _ dvd_rfl
  have hnoshort : ¬ ((walRecordBytes t p ++ rest).length - 16 <
      leDecode ((walRecordBytes t p ++ rest).take 4)) := by
    rw [hdecode]
    omega
  rw [if_neg hnoshort]
  have hdrop16 : (walRecordBytes t p ++ rest).drop 16 = p ++ rest := by
    rw [hassoc]
    exact List.drop_left' (walHeaderBytes_length t p.length)
  have hdropLen : (walRecordBytes t p ++ rest).drop (16 + p.length % 2 ^ 32) =
      (p ++ rest).drop (p.length % 2 ^ 32) := by
    rw [hassoc]
    rw [show 16 + p.length % 2 ^ 32 =
        (walHeaderBytes t p.length).length + p.length % 2 ^ 32 from by
      rw [walHeaderBytes_length]]
    exact List.drop_append (p.length % 2 ^ 32)
  rw [hdecode, hdrop16, hdropLen]

/-- The group-commit buffer discipline never loses or reorders bytes:
`file ++ buffer` after an `append` equals the previous `file ++ buffer`
followed by the record's bytes, and the limit is unchanged. -/
theorem walAppend_file_buffer (w : WalState) (t : Int) (p : List Nat) :
    (walAppend w t p).file ++ (walAppend w t p).buffer =
      (w.file ++ w.buffer) ++ walRecordBytes t p ∧
    (walAppend w t p).buffer_limit = w.buffer_limit := by
  unfold walAppend walFlush
  dsimp only
  constructor
  · split
    · split
      · simp_all
      · simp
    · simp
  · split
    · split <;> simp
    · simp

theorem walAppend_fold_file_buffer (recs : List (Int × List Nat)) (w : WalState) :
    (recs.foldl (fun s r => walAppend s r.1 r.2) w).file ++
      (recs.foldl (fun s r => walAppend s r.1 r.2) w).buffer =
      (w.file ++ w.buffer) ++ recs.flatMap (fun r => walRecordBytes r.1 r.2) := by
  induction recs generalizing w with
  | nil => simp
  | cons r rs ih =>
      simp only [List.foldl_cons, List.flatMap_cons]
      rw [ih (walAppend w r.1 r.2), (walAppend_file_buffer w r.1 r.2).1]
      simp

theorem walFlush_file (w : WalState) : (walFlush w).file = w.file ++ w.buffer := by
  unfold walFlush
  split
  · simp_all
  · rfl

/-- `iter_log` inverts the concatenation of well-formed records whose
payloads all fit in a `u32` length field. -/
theorem iterLog_flatMap (recs : List (Int × List Nat))
    (h : ∀ r ∈ recs, r.2.length < 2 ^ 32) :
    iterLog (recs.flatMap (fun r => walRecordBytes r.1 r.2)) =
      Except.ok (recs.map Prod.snd) := by
  induction recs with
  | nil =>
      rw [iterLog]
      simp
  | cons r rs ih =>
      have hr : r.2.length < 2 ^ 32 := h r (List.mem_cons_self r rs)
      have hmod : r.2.length % 2 ^ 32 = r.2.length := Nat.mod_eq_of_lt hr
      simp only [List.flatMap_cons]
      rw [iterLog_cons, hmod]
      rw [List.take_left' rfl, List.drop_left' rfl]
      rw [ih (fun q hq => h q (List.mem_cons_of_mem r hq))]
      simp

/-- C4 (amended): for every buffer limit, every sequence of records with
payloads shorter than `2 ^ 32` bytes appended in order and then flushed
yields a log file on which `iter_log` returns exactly the payloads in the
original append order. -/
theorem c4_wal_roundtrip (limit : Nat) (recs : List (Int × List Nat))
    (h : ∀ r ∈ recs, r.2.length < 2 ^ 32) :
    iterLog (walFlush (recs.foldl (fun s r => walAppend s r.1 r.2)
        (walOpen limit))).file = Except.ok (recs.map Prod.snd) := by
  rw [walFlush_file, walAppend_fold_file_buffer]
  show iterLog (([] ++ []) ++ _) = _
  rw [List.nil_append, List.nil_append]
  exact iterLog_flatMap recs h

/-- C4 witness: the spec's crash-replay scenario (limit 128, two small
payloads) replayed in order. -/
theorem c4_wal_roundtrip_witness :
    iterLog (walFlush ([((0 : Int), [1]), (0, [2, 3])].foldl
        (fun s r => walAppend s r.1 r.2) (walOpen 128))).file =
      Except.ok [[1], [2, 3]] :=
  c4_wal_roundtrip 128 [((0 : Int), [1]), (0, [2, 3])] (by decide)

/-- C4 counterexample: a single payload of exactly `2 ^ 32` bytes breaks
the round trip, because `append` stores `payload.len() as u32`, which
truncates `2 ^ 32` to a declared length of `0`; replay then returns an
empty first payload (followed by garbage parses of the payload bytes)
rather than the appended payload. -/
theorem c4_wal_large_payload_breaks :
    iterLog (walFlush (walAppend (walOpen 128) 0 (List.replicate (2 ^ 32) 0))).file ≠
      Except.ok [List.replicate (2 ^ 32) 0] := by
  have hlen : (List.replicate (2 ^ 32) (0 : Nat)).length = 2 ^ 32 :=
    List.length_replicate _ _
  have hfile : (walFlush (walAppend (walOpen 128) 0 (List.replicate (2 ^ 32) 0))).file =
      walRecordBytes 0 (List.replicate (2 ^ 32) 0) := by
    rw [walFlush_file,
      (walAppend_file_buffer (walOpen 128) 0 (List.replicate (2 ^ 32) 0)).1]
    rw [show (walOpen 128).file = [] from rfl, show (walOpen 128).buffer = [] from rfl,
      List.nil_append, List.nil_append]
  rw [hfile]
  rw [(List.append_nil (walRecordBytes 0 (List.replicate (2 ^ 32) 0))).symm, iterLog_cons]
  rw [hlen, Nat.mod_self, List.take_zero, List.drop_zero, List.append_nil]
  cases hrec : iterLog (List.replicate (2 ^ 32) (0 : Nat)) with
  | ok l =>
      intro hcontra
      have h1 : ([] : List Nat) :: l = [List.replicate (2 ^ 32) 0] :=
        Except.ok.inj hcontra
      have h2 : ([] : List Nat) = List.replicate (2 ^ 32) 0 := by
        injection h1
      have h3 := congrArg List.length h2
      rw [List.length_nil, hlen] at h3
      exact absurd h3 (by norm_num)
  | error e =>
      intro hcontra
      exact Except.noConfusion hcontra

/-! ### Further association-list lemmas (used by the buffer pool and LSM) -/

theorem mapFind_isSome_iff {α β : Type} [DecidableEq α] (m : List (α × β)) (k : α) :
    (mapFind m k).isSome ↔ k ∈ m.map Prod.fst := by
  induction m with
  | nil => simp [mapFind]
  | cons p m ih =>
      by_cases hp : p.1 = k
      · simp [mapFind, List.find?_cons, hp]
      · have hp2 : ¬ k = p.1 := fun hh => hp hh.symm
        have hstep : mapFind (p :: m) k = mapFind m k := by
          rw [mapFind, mapFind, List.find?_cons]
          simp [hp]
        rw [hstep, ih]
        simp [hp2]

theorem mapFind_eq_none_iff {α β : Type} [DecidableEq α] (m : List (α × β)) (k : α) :
    mapFind m k = none ↔ ¬ k ∈ m.map Prod.fst := by
  rw [← mapFind_isSome_iff]
  cases mapFind m k <;> simp

theorem filterKey_map_fst {α β : Type} [DecidableEq α] (m : List (α × β)) (k : α) :
    (m.filter (fun q => ¬ q.1 = k)).map Prod.fst =
      (m.map Prod.fst).filter (fun x => ¬ x = k) := by
  induction m with
  | nil => rfl
  | cons p m ih =>
      by_cases hp : p.1 = k
      · simpa [List.filter_cons, hp] using ih
      · simpa [List.filter_cons, hp] using ih

theorem mapFind_filterKey_self {α β : Type} [DecidableEq α] (m : List (α × β)) (k : α) :
    mapFind (m.filter (fun q => ¬ q.1 = k)) k = none := by
  rw [mapFind_eq_none_iff, filterKey_map_fst]
  intro hmem
  exact (of_decide_eq_true (List.mem_filter.mp hmem).2) rfl

theorem filterKey_eq_self {α β : Type} [DecidableEq α] (m : List (α × β)) (k : α)
    (h : ¬ k ∈ m.map Prod.fst) : m.filter (fun q => ¬ q.1 = k) = m := by
  induction m with
  | nil => rfl
  | cons p m ih =>
      have h1 : ¬ p.1 = k := fun he => h (by simp [he.symm])
      have h2 : ¬ k ∈ m.map Prod.fst := fun hm => h (by simp [hm])
      rw [List.filter_cons, if_pos (by simpa using h1), ih h2]

theorem filterKey_length {α β : Type} [DecidableEq α] (m : List (α × β)) (k : α)
    (hnd : (m.map Prod.fst).Nodup) (hk : k ∈ m.map Prod.fst) :
    (m.filter (fun q => ¬ q.1 = k)).length + 1 = m.length := by
  induction m with
  | nil => cases hk
  | cons p m ih =>
      rw [List.map_cons, List.nodup_cons] at hnd
      rw [List.map_cons] at hk
      rcases List.mem_cons.mp hk with h1 | h1
      · have hp : p.1 = k := h1.symm
        have h2 : ¬ k ∈ m.map Prod.fst := by
          rw [← hp]
          exact hnd.1
        rw [List.filter_cons, if_neg (by simp [hp]), filterKey_eq_self m k h2]
        simp
      · have hp : ¬ p.1 = k := fun he => hnd.1 (he ▸ h1)
        rw [List.filter_cons, if_pos (by simpa using hp), List.length_cons,
          List.length_cons]
        rw [ih hnd.2 h1]

theorem mapInsert_keys_nodup {α β : Type} [DecidableEq α] (m : List (α × β)) (k : α)
    (v : β) (h : (m.map Prod.fst).Nodup) : ((mapInsert m k v).map Prod.fst).Nodup := by
  rw [mapInsert, List.map_cons, List.nodup_cons, filterKey_map_fst]
  constructor
  · intro hmem
    exact (of_decide_eq_true (List.mem_filter.mp hmem).2) rfl
  · exact h.filter _

theorem mapInsert_length_of_none {α β : Type} [DecidableEq α] (m : List (α × β))
    (k : α) (v : β) (h : mapFind m k = none) :
    (mapInsert m k v).length = m.length + 1 := by
  rw [mapInsert, List.length_cons, filterKey_eq_self m k ((mapFind_eq_none_iff m k).mp h)]

/-! ### C6: the buffer pool never exceeds its capacity -/

theorem touch_preserves (s : BufferPool) (pid : Nat) (h : PoolInv s) :
    PoolInv (s.touch pid) ∧ (s.touch pid).frames = s.frames ∧
      (s.touch pid).capacity = s.capacity := by
  obtain ⟨hcap, hkeys, hlists, hmem, hlen⟩ := h
  rw [List.nodup_append] at hlists
  obtain ⟨hn1, hn2, hd⟩ := hlists
  by_cases h1 : pid ∈ s.am
  · rw [BufferPool.touch, if_pos h1]
    refine ⟨⟨hcap, hkeys, ?_, ?_, hlen⟩, rfl, rfl⟩
    · rw [List.nodup_append]
      refine ⟨hn1, ?_, ?_⟩
      · exact List.nodup_cons.mpr
          ⟨fun hc => ((hn2.mem_erase_iff).mp hc).1 rfl, hn2.erase pid⟩
      · intro x hx hx2
        rcases List.mem_cons.mp hx2 with hx3 | hx3
        · exact hd hx (hx3 ▸ h1)
        · exact hd hx ((hn2.mem_erase_iff).mp hx3).2
    · intro p
      rw [hmem p]
      constructor
      · rintro (hp | hp)
        · exact Or.inl hp
        · by_cases hpp : p = pid
          · exact Or.inr (hpp ▸ List.mem_cons_self _ _)
          · exact Or.inr (List.mem_cons_of_mem _ ((hn2.mem_erase_iff).mpr ⟨hpp, hp⟩))
      · rintro (hp | hp)
        · exact Or.inl hp
        · rcases List.mem_cons.mp hp with hp2 | hp2
          · exact Or.inr (hp2 ▸ h1)
          · exact Or.inr ((hn2.mem_erase_iff).mp hp2).2
  · by_cases h2 : pid ∈ s.a1In
    · rw [BufferPool.touch, if_neg h1, if_pos h2]
      refine ⟨⟨hcap, hkeys, ?_, ?_, hlen⟩, rfl, rfl⟩
      · rw [List.nodup_append]
        refine ⟨hn1.erase pid, List.nodup_cons.mpr ⟨h1, hn2⟩, ?_⟩
        intro x hx hx2
        rcases List.mem_cons.mp hx2 with hx3 | hx3
        · exact ((hn1.mem_erase_iff).mp hx).1 hx3
        · exact hd ((hn1.mem_erase_iff).mp hx).2 hx3
      · intro p
        rw [hmem p]
        constructor
        · rintro (hp | hp)
          · by_cases hpp : p = pid
            · exact Or.inr (hpp ▸ List.mem_cons_self _ _)
            · exact Or.inl ((hn1.mem_erase_iff).mpr ⟨hpp, hp⟩)
          · exact Or.inr (List.mem_cons_of_mem _ hp)
        · rintro (hp | hp)
          · exact Or.inl ((hn1.mem_erase_iff).mp hp).2
          · rcases List.mem_cons.mp hp with hp2 | hp2
            · exact Or.inl (hp2 ▸ h2)
            · exact Or.inr hp2
    · rw [BufferPool.touch, if_neg h1, if_neg h2]
      exact ⟨⟨hcap, hkeys, List.nodup_append.mpr ⟨hn1, hn2, hd⟩, hmem, hlen⟩, rfl, rfl⟩

/-- What `ensure_capacity` guarantees under the pool invariant: the
invariant is preserved, the capacity and the residency bound leave room
for one insertion, frames are only ever removed, and at full capacity
exactly one resident victim is filtered out of the frame map. -/
theorem ensureCapacity_spec (s : BufferPool) (h : PoolInv s) :
    PoolInv s.ensureCapacity ∧ s.ensureCapacity.capacity = s.capacity ∧
    s.ensureCapacity.frames.length + 1 ≤ s.capacity ∧
    (∀ q, (mapFind s.ensureCapacity.frames q).isSome →
      (mapFind s.frames q).isSome) ∧
    (s.frames.length = s.capacity →
      ∃ old, (mapFind s.frames old).isSome ∧
        s.ensureCapacity.frames = s.frames.filter (fun q => ¬ q.1 = old)) := by
  obtain ⟨hcap, hkeys, hlists, hmem, hlen⟩ := h
  by_cases hlt : s.frames.length < s.capacity
  · have he : s.ensureCapacity = s := by
      rw [BufferPool.ensureCapacity, if_pos hlt]
    rw [he]
    refine ⟨⟨hcap, hkeys, hlists, hmem, hlen⟩, rfl, by omega, fun q hq => hq, ?_⟩
    intro hfull
    exact absurd hlt (by simp [hfull])
  · have hfull : s.frames.length = s.capacity := by omega
    rw [List.nodup_append] at hlists
    obtain ⟨hn1, hn2, hd⟩ := hlists
    cases hal : s.a1In.getLast? with
    | some old =>
        have hmemold : old ∈ s.a1In := List.mem_of_mem_getLast? hal
        have hsplit : s.a1In.dropLast ++ [old] = s.a1In :=
          List.dropLast_append_getLast? old hal
        have holdkey : (mapFind s.frames old).isSome := (hmem old).mpr (Or.inl hmemold)
        have he : s.ensureCapacity =
            { s with a1In := s.a1In.dropLast,
                     a1Out := old :: s.a1Out,
                     frames := s.frames.filter (fun q => ¬ q.1 = old) } := by
          rw [BufferPool.ensureCapacity, if_neg hlt, hal]
        have hlen2 : (s.frames.filter (fun q => ¬ q.1 = old)).length + 1 =
            s.frames.length :=
          filterKey_length s.frames old hkeys ((mapFind_isSome_iff _ _).mp holdkey)
        have hn1d : (s.a1In.dropLast ++ [old]).Nodup := by rw [hsplit]; exact hn1
        rw [List.nodup_append] at hn1d
        have holdnotdrop : ¬ old ∈ s.a1In.dropLast := fun hc =>
          (hn1d.2.2 hc) (List.mem_singleton_self old)
        have hmemnew : ∀ p, (mapFind (s.frames.filter (fun q => ¬ q.1 = old)) p).isSome ↔
            (p ∈ s.a1In.dropLast ∨ p ∈ s.am) := by
          intro p
          by_cases hpo : p = old
          · rw [hpo]
            rw [mapFind_filterKey_self]
            simp only [Option.isSome_none, Bool.false_eq_true, false_iff]
            rintro (hc | hc)
            · exact holdnotdrop hc
            · exact hd hmemold hc
          · rw [mapFind_filter_ne s.frames old p hpo, hmem p]
            constructor
            · rintro (hp | hp)
              · have hp2 : p ∈ s.a1In.dropLast ++ [old] := by rw [hsplit]; exact hp
                rcases List.mem_append.mp hp2 with hp3 | hp3
                · exact Or.inl hp3
                · exact absurd (List.mem_singleton.mp hp3) hpo
              · exact Or.inr hp
            · rintro (hp | hp)
              · refine Or.inl ?_
                rw [← hsplit]
                exact List.mem_append.mpr (Or.inl hp)
              · exact Or.inr hp
        rw [he]
        dsimp only
        refine ⟨⟨hcap, ?_, ?_, hmemnew, by dsimp only; omega⟩, rfl, by omega, ?_, ?_⟩
        · rw [filterKey_map_fst]
          exact hkeys.filter _
        · rw [List.nodup_append]
          refine ⟨hn1d.1, hn2, ?_⟩
          intro x hx
          exact hd (by rw [← hsplit]; exact List.mem_append.mpr (Or.inl hx))
        · intro q hq
          by_cases hpo : q = old
          · rw [hpo, mapFind_filterKey_self] at hq
            cases hq
          · rwa [mapFind_filter_ne s.frames old q hpo] at hq
        · intro _
          exact ⟨old, holdkey, rfl⟩
    | none =>
        have ha1 : s.a1In = [] := List.getLast?_eq_none_iff.mp hal
        cases ham : s.am.getLast? with
        | some old =>
            have hmemold : old ∈ s.am := List.mem_of_mem_getLast? ham
            have hsplit : s.am.dropLast ++ [old] = s.am :=
              List.dropLast_append_getLast? old ham
            have holdkey : (mapFind s.frames old).isSome := (hmem old).mpr (Or.inr hmemold)
            have he : s.ensureCapacity =
                { s with am := s.am.dropLast,
                         frames := s.frames.filter (fun q => ¬ q.1 = old) } := by
              rw [BufferPool.ensureCapacity, if_neg hlt, hal, ham]
            have hlen2 : (s.frames.filter (fun q => ¬ q.1 = old)).length + 1 =
                s.frames.length :=
              filterKey_length s.frames old hkeys ((mapFind_isSome_iff _ _).mp holdkey)
            have hn2d : (s.am.dropLast ++ [old]).Nodup := by rw [hsplit]; exact hn2
            rw [List.nodup_append] at hn2d
            have holdnotdrop : ¬ old ∈ s.am.dropLast := fun hc =>
              (hn2d.2.2 hc) (List.mem_singleton_self old)
            have hmemnew : ∀ p,
                (mapFind (s.frames.filter (fun q => ¬ q.1 = old)) p).isSome ↔
                (p ∈ s.a1In ∨ p ∈ s.am.dropLast) := by
              intro p
              by_cases hpo : p = old
              · rw [hpo]
                rw [mapFind_filterKey_self]
                simp only [Option.isSome_none, Bool.false_eq_true, false_iff]
                rintro (hc | hc)
                · rw [ha1] at hc
                  cases hc
                · exact holdnotdrop hc
              · rw [mapFind_filter_ne s.frames old p hpo, hmem p]
                constructor
                · rintro (hp | hp)
                  · exact Or.inl hp
                  · have hp2 : p ∈ s.am.dropLast ++ [old] := by rw [hsplit]; exact hp
                    rcases List.mem_append.mp hp2 with hp3 | hp3
                    · exact Or.inr hp3
                    · exact absurd (List.mem_singleton.mp hp3) hpo
                · rintro (hp | hp)
                  · exact Or.inl hp
                  · refine Or.inr ?_
                    rw [← hsplit]
                    exact List.mem_append.mpr (Or.inl hp)
            rw [he]
            dsimp only
            refine ⟨⟨hcap, ?_, ?_, hmemnew, by dsimp only; omega⟩, rfl, by omega, ?_, ?_⟩
            · rw [filterKey_map_fst]
              exact hkeys.filter _
            · rw [List.nodup_append]
              refine ⟨hn1, hn2d.1, ?_⟩
              intro x hx hx2
              exact hd hx (by rw [← hsplit]; exact List.mem_append.mpr (Or.inl hx2))
            · intro q hq
              by_cases hpo : q = old
              · rw [hpo, mapFind_filterKey_self] at hq
                cases hq
              · rwa [mapFind_filter_ne s.frames old q hpo] at hq
            · intro _
              exact ⟨old, holdkey, rfl⟩
        | none =>
            have ham2 : s.am = [] := List.getLast?_eq_none_iff.mp ham
            exfalso
            cases hf : s.frames with
            | nil => rw [hf] at hfull; simp at hfull; omega
            | cons q t =>
                have hq : (mapFind s.frames q.1).isSome := by
                  rw [hf, mapFind]
                  simp [List.find?_cons]
                rcases (hmem q.1).mp hq with hc | hc
                · rw [ha1] at hc
                  cases hc
                · rw [ham2] at hc
                  cases hc

/-- `fetch_page` preserves the pool invariant and the capacity. -/
theorem fetchPage_inv (s : BufferPool) (pid : Nat) (h : PoolInv s) :
    PoolInv (s.fetchPage pid) ∧ (s.fetchPage pid).capacity = s.capacity := by
  cases hfind : mapFind s.frames pid with
  | some fr =>
      have he : s.fetchPage pid = s.touch pid := by
        rw [BufferPool.fetchPage, hfind]
      rw [he]
      obtain ⟨hi, _, hc⟩ := touch_preserves s pid h
      exact ⟨hi, hc⟩
  | none =>
      obtain ⟨hi1, hc1, hroom, hmono, _⟩ := ensureCapacity_spec s h
      obtain ⟨hcap1, hkeys1, hlists1, hmem1, _⟩ := hi1
      have hmiss1 : mapFind s.ensureCapacity.frames pid = none := by
        cases hm : mapFind s.ensureCapacity.frames pid with
        | none => rfl
        | some fr =>
            have := hmono pid (by rw [hm]; rfl)
            rw [hfind] at this
            cases this
      have hnotin : ¬ (pid ∈ s.ensureCapacity.a1In ∨ pid ∈ s.ensureCapacity.am) := by
        rw [← hmem1 pid, hmiss1]
        simp
      have he : s.fetchPage pid =
          { s.ensureCapacity with
            frames := mapInsert s.ensureCapacity.frames pid (BufferFrame.new pid),
            a1In := pid :: s.ensureCapacity.a1In } := by
        rw [BufferPool.fetchPage, hfind]
      rw [he]
      refine ⟨⟨hcap1, mapInsert_keys_nodup _ _ _ hkeys1, ?_, ?_, ?_⟩, hc1⟩
      · show (pid :: s.ensureCapacity.a1In ++ s.ensureCapacity.am).Nodup
        rw [List.cons_append, List.nodup_cons]
        refine ⟨?_, hlists1⟩
        intro hc
        exact hnotin (List.mem_append.mp hc)
      · intro p
        by_cases hpp : p = pid
        · rw [hpp, mapFind_mapInsert_self]
          simp
        · rw [mapFind_mapInsert_of_ne _ _ _ _ hpp, hmem1 p]
          constructor
          · rintro (hp | hp)
            · exact Or.inl (List.mem_cons_of_mem _ hp)
            · exact Or.inr hp
          · rintro (hp | hp)
            · rcases List.mem_cons.mp hp with hp2 | hp2
              · exact absurd hp2 hpp
              · exact Or.inl hp2
            · exact Or.inr hp
      · show (mapInsert s.ensureCapacity.frames pid (BufferFrame.new pid)).length ≤
          s.ensureCapacity.capacity
        rw [mapInsert_length_of_none _ _ _ hmiss1, hc1]
        omega

/-- On a miss at full capacity, exactly one resident frame is evicted:
the victim disappears, the missed page appears fresh, and every other page
keeps its frame. -/
theorem fetchPage_full_miss (s : BufferPool) (pid : Nat) (h : PoolInv s)
    (hmiss : mapFind s.frames pid = none) (hfull : s.frames.length = s.capacity) :
    (s.fetchPage pid).frames.length = s.capacity ∧
    ∃ v, (mapFind s.frames v).isSome ∧
      mapFind (s.fetchPage pid).frames v = none ∧
      mapFind (s.fetchPage pid).frames pid = some (BufferFrame.new pid) ∧
      ∀ q, ¬ q = v → ¬ q = pid →
        mapFind (s.fetchPage pid).frames q = mapFind s.frames q := by
  obtain ⟨hi1, hc1, hroom, hmono, hevict⟩ := ensureCapacity_spec s h
  obtain ⟨old, holdkey, hframes1⟩ := hevict hfull
  have hmiss1 : mapFind s.ensureCapacity.frames pid = none := by
    rw [hframes1]
    by_cases hpo : pid = old
    · rw [hpo, mapFind_filterKey_self]
    · rw [mapFind_filter_ne s.frames old pid hpo]
      exact hmiss
  have he : s.fetchPage pid =
      { s.ensureCapacity with
        frames := mapInsert s.ensureCapacity.frames pid (BufferFrame.new pid),
        a1In := pid :: s.ensureCapacity.a1In } := by
    rw [BufferPool.fetchPage, hmiss]
  have holdne : ¬ old = pid := by
    intro hc
    rw [hc, hmiss] at holdkey
    cases holdkey
  refine ⟨?_, old, holdkey, ?_, ?_, ?_⟩
  · rw [he]
    show (mapInsert s.ensureCapacity.frames pid (BufferFrame.new pid)).length = s.capacity
    rw [mapInsert_length_of_none _ _ _ hmiss1, hframes1]
    have hlen2 : (s.frames.filter (fun q => ¬ q.1 = old)).length + 1 = s.frames.length :=
      filterKey_length s.frames old h.2.1 ((mapFind_isSome_iff _ _).mp holdkey)
    omega
  · rw [he]
    show mapFind (mapInsert s.ensureCapacity.frames pid (BufferFrame.new pid)) old = none
    rw [mapFind_mapInsert_of_ne _ _ _ _ holdne, hframes1, mapFind_filterKey_self]
  · rw [he]
    exact mapFind_mapInsert_self _ _ _
  · intro q hqv hqp
    rw [he]
    show mapFind (mapInsert s.ensureCapacity.frames pid (BufferFrame.new pid)) q = _
    rw [mapFind_mapInsert_of_ne _ _ _ _ hqp, hframes1,
      mapFind_filter_ne s.frames old q hqv]

/-- All states along a fetch trace satisfy the invariant and keep the
original capacity. -/
theorem poolStates_inv (ps : List Nat) (s : BufferPool) (h : PoolInv s) :
    ∀ q ∈ poolStates s ps, PoolInv q ∧ q.capacity = s.capacity := by
  induction ps generalizing s with
  | nil =>
      intro q hq
      rw [poolStates] at hq
      rcases List.mem_singleton.mp hq with rfl
      exact ⟨h, rfl⟩
  | cons p ps ih =>
      intro q hq
      rw [poolStates] at hq
      rcases List.mem_cons.mp hq with hq1 | hq1
      · rw [hq1]
        exact ⟨h, rfl⟩
      · obtain ⟨hf1, hf2⟩ := fetchPage_inv s p h
        obtain ⟨hr1, hr2⟩ := ih (s.fetchPage p) hf1 q hq1
        exact ⟨hr1, by rw [hr2, hf2]⟩

/-- C6 (amended): for every capacity `N ≥ 1` and every sequence of
`fetch_page` calls, every pool state along the trace holds at most `N`
frames, and from any reachable state a miss while `N` frames are resident
evicts exactly one resident frame: afterwards there are again `N` frames,
one previously resident victim is gone, the missed page is freshly
resident, and every other page's frame is untouched. -/
theorem c6_pool_bounded (N : Nat) (ps : List Nat) (hN : 1 ≤ N) :
    ∀ s ∈ poolStates (BufferPool.new N) ps,
      s.frames.length ≤ N ∧
      (∀ pid, mapFind s.frames pid = none → s.frames.length = N →
        ((s.fetchPage pid).frames.length = N ∧
         ∃ v, (mapFind s.frames v).isSome ∧
           mapFind (s.fetchPage pid).frames v = none ∧
           mapFind (s.fetchPage pid).frames pid = some (BufferFrame.new pid) ∧
           ∀ q, ¬ q = v → ¬ q = pid →
             mapFind (s.fetchPage pid).frames q = mapFind s.frames q)) := by
  intro s hs
  have h0 : PoolInv (BufferPool.new N) := by
    refine ⟨hN, by simp [BufferPool.new], by simp [BufferPool.new], ?_, by simp [BufferPool.new]⟩
    intro p
    simp [BufferPool.new, mapFind]
  obtain ⟨hInv, hcap⟩ := poolStates_inv ps (BufferPool.new N) h0 s hs
  have hcapN : s.capacity = N := hcap
  constructor
  · rw [← hcapN]
    exact hInv.2.2.2.2
  · intro pid hmiss hfull
    have := fetchPage_full_miss s pid hInv hmiss (by rw [hcapN]; exact hfull)
    rw [hcapN] at this
    exact this

/-- C6 counterexample: with capacity `0` the claim fails — the very first
fetch inserts a frame without evicting anything, so the pool holds one
frame, exceeding its capacity. -/
theorem c6_capacity_zero :
    ¬ (((BufferPool.new 0).fetchPage 1).frames.length ≤ 0) := by decide

/-- C6 witness: a pool of capacity 2 after fetching pages 1 and 2 holds at
most 2 frames, and fetching page 3 evicts exactly one resident frame. -/
theorem c6_pool_bounded_witness :
    (⟨2, [], [2, 1], [], [(2, BufferFrame.new 2), (1, BufferFrame.new 1)]⟩ :
        BufferPool).frames.length ≤ 2 ∧
    (∀ pid, mapFind (⟨2, [], [2, 1], [], [(2, BufferFrame.new 2),
          (1, BufferFrame.new 1)]⟩ : BufferPool).frames pid = none →
      (⟨2, [], [2, 1], [], [(2, BufferFrame.new 2), (1, BufferFrame.new 1)]⟩ :
          BufferPool).frames.length = 2 →
      (((⟨2, [], [2, 1], [], [(2, BufferFrame.new 2), (1, BufferFrame.new 1)]⟩ :
            BufferPool).fetchPage pid).frames.length = 2 ∧
       ∃ v, (mapFind (⟨2, [], [2, 1], [], [(2, BufferFrame.new 2),
              (1, BufferFrame.new 1)]⟩ : BufferPool).frames v).isSome ∧
         mapFind (((⟨2, [], [2, 1], [], [(2, BufferFrame.new 2),
              (1, BufferFrame.new 1)]⟩ : BufferPool).fetchPage pid).frames) v = none ∧
         mapFind (((⟨2, [], [2, 1], [], [(2, BufferFrame.new 2),
              (1, BufferFrame.new 1)]⟩ : BufferPool).fetchPage pid).frames) pid =
           some (BufferFrame.new pid) ∧
         ∀ q, ¬ q = v → ¬ q = pid →
           mapFind (((⟨2, [], [2, 1], [], [(2, BufferFrame.new 2),
                (1, BufferFrame.new 1)]⟩ : BufferPool).fetchPage pid).frames) q =
             mapFind (⟨2, [], [2, 1], [], [(2, BufferFrame.new 2),
                (1, BufferFrame.new 1)]⟩ : BufferPool).frames q)) :=
  c6_pool_bounded 2 [1, 2] (by decide)
    ⟨2, [], [2, 1], [], [(2, BufferFrame.new 2), (1, BufferFrame.new 1)]⟩ (by decide)

/-! ### C5 and C10: SSTable round trip and LSM flush -/

theorem bytesAt_read (file seg : List Nat) (pos : Nat) (h : bytesAt file pos seg)
    (i n : Nat) (hn : i + n ≤ seg.length) :
    sstReadExact file (pos + i) n = some ((seg.drop i).take n) := by
  obtain ⟨pre, post, hfile, hpre⟩ := h
  have hlen : file.length = pre.length + seg.length + post.length := by
    rw [hfile]
    simp only [List.length_append]
  rw [sstReadExact, if_pos (by omega)]
  congr 1
  rw [hfile, ← hpre, List.append_assoc, List.drop_append i, List.drop_append_of_le_length
    (by omega)]
  rw [List.take_append_of_le_length (by simp; omega)]

theorem sstEntriesAux_fst (es : List (List Nat × List Nat)) (off : Nat) :
    (sstEntriesAux es off).1 = es.flatMap (fun e => sstEntryBytes e.1 e.2) := by
  induction es generalizing off with
  | nil => rfl
  | cons e es ih =>
      cases e with
      | mk k v => simp [sstEntriesAux, ih]

theorem sstEntriesAux_keys (es : List (List Nat × List Nat)) (off : Nat) :
    (sstEntriesAux es off).2.map Prod.fst = es.map Prod.fst := by
  induction es generalizing off with
  | nil => rfl
  | cons e es ih =>
      cases e with
      | mk k v => simp [sstEntriesAux, ih]

theorem sstEntriesAux_off_bound (es : List (List Nat × List Nat)) (off : Nat) :
    ∀ p ∈ (sstEntriesAux es off).2, off ≤ p.2 ∧ p.2 ≤ off + (sstEntriesAux es off).1.length := by
  induction es generalizing off with
  | nil =>
      intro p hp
      cases hp
  | cons e es ih =>
      cases e with
      | mk k v =>
          intro p hp
          rw [sstEntriesAux] at hp ⊢
          rcases List.mem_cons.mp hp with hp1 | hp1
          · rw [hp1]
            simp
          · have := ih (off + (sstEntryBytes k v).length) p hp1
            constructor
            · omega
            · simp only [List.length_append]
              omega

theorem sstEntriesAux_spec (es : List (List Nat × List Nat)) (pre tail : List Nat) :
    ∀ p ∈ (sstEntriesAux es pre.length).2, ∃ v, (p.1, v) ∈ es ∧
      bytesAt (pre ++ (sstEntriesAux es pre.length).1 ++ tail) p.2
        (sstEntryBytes p.1 v) := by
  induction es generalizing pre with
  | nil =>
      intro p hp
      cases hp
  | cons e es ih =>
      cases e with
      | mk k v =>
          intro p hp
          rw [sstEntriesAux] at hp
          rcases List.mem_cons.mp hp with hp1 | hp1
          · refine ⟨v, ?_, ?_⟩
            · rw [hp1]
              exact List.mem_cons_self _ _
            · rw [hp1]
              refine ⟨pre, (sstEntriesAux es (pre.length + (sstEntryBytes k v).length)).1
                ++ tail, ?_, rfl⟩
              rw [sstEntriesAux]
              simp
          · have hlen : (pre ++ sstEntryBytes k v).length =
                pre.length + (sstEntryBytes k v).length := by simp
            have := ih (pre ++ sstEntryBytes k v) p (by rw [hlen]; exact hp1)
            obtain ⟨w, hw1, hw2⟩ := this
            refine ⟨w, List.mem_cons_of_mem _ hw1, ?_⟩
            obtain ⟨pre2, post2, hfile2, hpre2⟩ := hw2
            refine ⟨pre2, post2, ?_, hpre2⟩
            rw [← hfile2]
            rw [hlen]
            rw [sstEntriesAux]
            simp

theorem sstParseIndex_spec (idx : List (List Nat × Nat)) (pre suffix : List Nat)
    (hk : ∀ e ∈ idx, e.1.length < 2 ^ 32 ∧ e.2 < 2 ^ 64)
    (hs : suffix.length = 12) :
    sstParseIndex (pre ++ sstIndexBytes idx ++ suffix) pre.length = some idx := by
  induction idx generalizing pre with
  | nil =>
      rw [sstParseIndex, dif_neg]
      rw [sstIndexBytes]
      simp [hs]
  | cons e idx ih =>
      obtain ⟨hk1, hk2⟩ := hk e (List.mem_cons_self e idx)
      have hib : sstIndexBytes (e :: idx) =
          (leBytes 4 (e.1.length % 2 ^ 32) ++ e.1 ++ leBytes 8 e.2) ++
            sstIndexBytes idx := by
        rw [sstIndexBytes, List.flatMap_cons, sstIndexBytes]
      have hiblen : (leBytes 4 (e.1.length % 2 ^ 32) ++ e.1 ++ leBytes 8 e.2).length =
          12 + e.1.length := by
        simp [leBytes_length]
        omega
      have hat : bytesAt (pre ++ sstIndexBytes (e :: idx) ++ suffix) pre.length
          (leBytes 4 (e.1.length % 2 ^ 32) ++ e.1 ++ leBytes 8 e.2) := by
        refine ⟨pre, sstIndexBytes idx ++ suffix, ?_, rfl⟩
        rw [hib]
        simp
      have hflen : (pre ++ sstIndexBytes (e :: idx) ++ suffix).length =
          pre.length + (12 + e.1.length) + (sstIndexBytes idx).length + 12 := by
        rw [hib]
        simp only [List.length_append, hiblen, hs]
        omega
      have hr1 : sstReadExact (pre ++ sstIndexBytes (e :: idx) ++ suffix) (pre.length + 0) 4 =
          some (leBytes 4 (e.1.length % 2 ^ 32)) := by
        rw [bytesAt_read _ _ _ hat 0 4 (by rw [hiblen]; omega)]
        rw [List.drop_zero, List.append_assoc, List.take_append_of_le_length
          (by simp [leBytes_length])]
        simp [leBytes_length]
      rw [Nat.add_zero] at hr1
      have hdec1 : leDecode (leBytes 4 (e.1.length % 2 ^ 32)) = e.1.length := by
        rw [leDecode_leBytes]
        have h2 : (256 : Nat) ^ 4 = 2 ^ 32 := by norm_num
        rw [h2, Nat.mod_mod_of_dvd _ dvd_rfl, Nat.mod_eq_of_lt hk1]
      have hr2 : sstReadExact (pre ++ sstIndexBytes (e :: idx) ++ suffix)
          (pre.length + 4) e.1.length = some e.1 := by
        rw [bytesAt_read _ _ _ hat 4 e.1.length (by rw [hiblen]; omega)]
        rw [List.append_assoc, List.drop_append_of_le_length (by simp [leBytes_length]),
          List.drop_eq_nil_of_le (by simp [leBytes_length]), List.nil_append,
          List.take_append_of_le_length (by omega), List.take_length]
      have hr3 : sstReadExact (pre ++ sstIndexBytes (e :: idx) ++ suffix)
          (pre.length + 4 + e.1.length) 8 = some (leBytes 8 e.2) := by
        have h4 := bytesAt_read _ _ _ hat (4 + e.1.length) 8 (by rw [hiblen]; omega)
        rw [← Nat.add_assoc] at h4
        rw [h4]
        rw [List.drop_left' (show (leBytes 4 (e.1.length % 2 ^ 32) ++ e.1).length =
          4 + e.1.length from by simp [leBytes_length])]
        rw [List.take_of_length_le (by simp [leBytes_length])]
      have hdec3 : leDecode (leBytes 8 e.2) = e.2 := by
        rw [leDecode_leBytes]
        have h2 : (256 : Nat) ^ 8 = 2 ^ 64 := by norm_num
        rw [h2, Nat.mod_eq_of_lt hk2]
      have hrec : pre.length + 4 + e.1.length + 8 =
          (pre ++ (leBytes 4 (e.1.length % 2 ^ 32) ++ e.1 ++ leBytes 8 e.2)).length := by
        simp only [List.length_append, hiblen]
        omega
      have hfile : pre ++ sstIndexBytes (e :: idx) ++ suffix =
          (pre ++ (leBytes 4 (e.1.length % 2 ^ 32) ++ e.1 ++ leBytes 8 e.2)) ++
            sstIndexBytes idx ++ suffix := by
        rw [hib]
        simp
      rw [sstParseIndex, dif_pos (by omega)]
      simp only [hr1, hdec1, hr2, hr3, hdec3]
      rw [hrec, hfile, ih _ (fun q hq => hk q (List.mem_cons_of_mem e hq))]

theorem foldInsert_not_mem {α β : Type} [DecidableEq α] (pairs : List (α × β))
    (m : List (α × β)) (k : α) (h : ¬ k ∈ pairs.map Prod.fst) :
    mapFind (pairs.foldl (fun acc e => mapInsert acc e.1 e.2) m) k = mapFind m k := by
  induction pairs generalizing m with
  | nil => rfl
  | cons p ps ih =>
      have h1 : ¬ k = p.1 := by
        intro he
        apply h
        rw [he]
        exact List.mem_map_of_mem _ (List.mem_cons_self p ps)
      have h2 : ¬ k ∈ ps.map Prod.fst := by
        intro hm
        apply h
        rw [List.map_cons]
        exact List.mem_cons_of_mem _ hm
      rw [List.foldl_cons, ih _ h2, mapFind_mapInsert_of_ne _ _ _ _ h1]

theorem foldInsert_mem {α β : Type} [DecidableEq α] (pairs : List (α × β))
    (m : List (α × β)) (k : α) (v : β) (hnd : (pairs.map Prod.fst).Nodup)
    (hkv : (k, v) ∈ pairs) :
    mapFind (pairs.foldl (fun acc e => mapInsert acc e.1 e.2) m) k = some v := by
  induction pairs generalizing m with
  | nil => cases hkv
  | cons p ps ih =>
      rw [List.map_cons, List.nodup_cons] at hnd
      rcases List.mem_cons.mp hkv with h1 | h1
      · have hk1 : p.1 = k := by rw [← h1]
        have hknotin : ¬ k ∈ ps.map Prod.fst := by
          rw [← hk1]
          exact hnd.1
        have hv1 : p.2 = v := by rw [← h1]
        rw [List.foldl_cons, foldInsert_not_mem ps _ k hknotin, ← hk1, ← hv1,
          mapFind_mapInsert_self]
      · exact ih _ hnd.2 h1

theorem find?_of_mem_nodup {α β : Type} [DecidableEq α] (es : List (α × β)) (k : α)
    (v : β) (hnd : (es.map Prod.fst).Nodup) (h : (k, v) ∈ es) :
    es.find? (fun e => e.1 = k) = some (k, v) := by
  induction es with
  | nil => cases h
  | cons p ps ih =>
      rw [List.map_cons, List.nodup_cons] at hnd
      rcases List.mem_cons.mp h with h1 | h1
      · subst h1
        rw [List.find?_cons]
        simp
      · have hne : ¬ p.1 = k := by
          intro he
          exact hnd.1 (he ▸ List.mem_map_of_mem _ h1)
        rw [List.find?_cons]
        simp only [hne, decide_eq_false hne]
        exact ih hnd.2 h1

theorem find?_key_eq_none {α β : Type} [DecidableEq α] (es : List (α × β)) (k : α)
    (h : ¬ k ∈ es.map Prod.fst) : es.find? (fun e => e.1 = k) = none := by
  rw [List.find?_eq_none]
  intro e he hek
  exact h (of_decide_eq_true hek ▸ List.mem_map_of_mem _ he)

/-- `SsTableReader::open` on a file written by `flush_to_path` succeeds
and loads exactly the writer's index, provided every key fits its `u32`
length field and the entry region fits the `u64` offsets. -/
theorem sstOpen_spec (mem : MemTable)
    (hke : ∀ e ∈ mem.entries, e.1.length < 2 ^ 32)
    (hfits : (sstEntriesAux mem.entries 0).1.length < 2 ^ 64) :
    sstOpen (sstFileBytes mem) = Except.ok
      ⟨sstFileBytes mem, (sstEntriesAux mem.entries 0).2.foldl
        (fun m e => mapInsert m e.1 e.2) []⟩ := by
  have hE8 : (leBytes 8 (sstEntriesAux mem.entries 0).1.length).length = 8 :=
    leBytes_length _ _
  have hM4 : (leBytes 4 FOOTER_MAGIC).length = 4 := leBytes_length _ _
  have hlen : (sstFileBytes mem).length =
      (sstEntriesAux mem.entries 0).1.length +
        (sstIndexBytes (sstEntriesAux mem.entries 0).2).length + 12 := by
    rw [sstFileBytes]
    simp only [List.length_append, hE8, hM4]
  rw [sstOpen, if_neg (by omega)]
  have hdropfoot : (sstFileBytes mem).drop ((sstFileBytes mem).length - 12) =
      leBytes 8 (sstEntriesAux mem.entries 0).1.length ++ leBytes 4 FOOTER_MAGIC := by
    have hform : sstFileBytes mem =
        ((sstEntriesAux mem.entries 0).1 ++
          sstIndexBytes (sstEntriesAux mem.entries 0).2) ++
          (leBytes 8 (sstEntriesAux mem.entries 0).1.length ++ leBytes 4 FOOTER_MAGIC) := by
      rw [sstFileBytes]
      simp
    rw [hform]
    rw [List.drop_left' (by simp only [List.length_append]; omega)]
  have hidxoff : leDecode (((sstFileBytes mem).drop ((sstFileBytes mem).length - 12)).take 8) =
      (sstEntriesAux mem.entries 0).1.length := by
    rw [hdropfoot, List.take_left' hE8, leDecode_leBytes]
    have h2 : (256 : Nat) ^ 8 = 2 ^ 64 := by norm_num
    rw [h2, Nat.mod_eq_of_lt hfits]
  have hdropmagic : (sstFileBytes mem).drop ((sstFileBytes mem).length - 4) =
      leBytes 4 FOOTER_MAGIC := by
    have hform : sstFileBytes mem =
        ((sstEntriesAux mem.entries 0).1 ++
          sstIndexBytes (sstEntriesAux mem.entries 0).2 ++
          leBytes 8 (sstEntriesAux mem.entries 0).1.length) ++ leBytes 4 FOOTER_MAGIC := by
      rw [sstFileBytes]
    rw [hform]
    rw [List.drop_left' (by simp only [List.length_append, hE8]; omega)]
  have hmagic : leDecode (((sstFileBytes mem).drop ((sstFileBytes mem).length - 4)).take 4) =
      FOOTER_MAGIC := by
    rw [hdropmagic, List.take_of_length_le (by rw [hM4]), leDecode_leBytes]
    have h2 : (256 : Nat) ^ 4 = 2 ^ 32 := by norm_num
    rw [h2]
    have h3 : FOOTER_MAGIC < 2 ^ 32 := by norm_num [FOOTER_MAGIC]
    exact Nat.mod_eq_of_lt h3
  have hkidx : ∀ e ∈ (sstEntriesAux mem.entries 0).2,
      e.1.length < 2 ^ 32 ∧ e.2 < 2 ^ 64 := by
    intro e he
    constructor
    · have hkm : e.1 ∈ (sstEntriesAux mem.entries 0).2.map Prod.fst :=
        List.mem_map_of_mem _ he
      rw [sstEntriesAux_keys] at hkm
      obtain ⟨q, hq1, hq2⟩ := List.mem_map.mp hkm
      exact hq2 ▸ hke q hq1
    · have := sstEntriesAux_off_bound mem.entries 0 e he
      omega
  have hform2 : sstFileBytes mem =
      (sstEntriesAux mem.entries 0).1 ++
        sstIndexBytes (sstEntriesAux mem.entries 0).2 ++
        (leBytes 8 (sstEntriesAux mem.entries 0).1.length ++ leBytes 4 FOOTER_MAGIC) := by
    rw [sstFileBytes]
    simp
  have hparse : sstParseIndex (sstFileBytes mem) (sstEntriesAux mem.entries 0).1.length =
      some (sstEntriesAux mem.entries 0).2 := by
    rw [hform2]
    exact sstParseIndex_spec _ _ _ hkidx (by simp only [List.length_append, hE8, hM4])
  rw [hidxoff, hmagic, if_neg (by simp), hparse]

/-- Parsing one entry through `SsTableReader::get`: with the key length
exact (below `2 ^ 32`), the reader returns the first
`val_len as u32` bytes of the stored value — the whole value exactly when
it also fits the `u32` length field, a truncated prefix otherwise. -/
theorem sstGet_entry_parse (file : List Nat) (o : Nat) (k v : List Nat)
    (idx : List (List Nat × Nat)) (hk : k.length < 2 ^ 32)
    (hat : bytesAt file o (sstEntryBytes k v))
    (hidx : mapFind idx k = some o) :
    SsTableReader.get ⟨file, idx⟩ k = some (v.take (v.length % 2 ^ 32)) := by
  have hseglen : (sstEntryBytes k v).length = 8 + k.length + v.length := by
    simp [sstEntryBytes, leBytes_length]
    omega
  have hsplit1 : sstEntryBytes k v = leBytes 4 (k.length % 2 ^ 32) ++
      (leBytes 4 (v.length % 2 ^ 32) ++ (k ++ v)) := by
    rw [sstEntryBytes]
    simp [List.append_assoc]
  have hr1 : sstReadExact file (o + 0) 4 = some (leBytes 4 (k.length % 2 ^ 32)) := by
    rw [bytesAt_read file _ o hat 0 4 (by omega)]
    rw [List.drop_zero, hsplit1, List.take_left' (leBytes_length _ _)]
  rw [Nat.add_zero] at hr1
  have hdec1 : leDecode (leBytes 4 (k.length % 2 ^ 32)) = k.length := by
    rw [leDecode_leBytes]
    have h2 : (256 : Nat) ^ 4 = 2 ^ 32 := by norm_num
    rw [h2, Nat.mod_mod_of_dvd _ dvd_rfl, Nat.mod_eq_of_lt hk]
  have hr2 : sstReadExact file (o + 4) 4 = some (leBytes 4 (v.length % 2 ^ 32)) := by
    rw [bytesAt_read file _ o hat 4 4 (by omega)]
    rw [hsplit1, List.drop_left' (leBytes_length _ _), List.take_left' (leBytes_length _ _)]
  have hdec2 : leDecode (leBytes 4 (v.length % 2 ^ 32)) = v.length % 2 ^ 32 := by
    rw [leDecode_leBytes]
    have h2 : (256 : Nat) ^ 4 = 2 ^ 32 := by norm_num
    rw [h2, Nat.mod_mod_of_dvd _ dvd_rfl]
  have hsplit2 : sstEntryBytes k v =
      (leBytes 4 (k.length % 2 ^ 32) ++ leBytes 4 (v.length % 2 ^ 32) ++ k) ++ v := by
    rw [sstEntryBytes]
  have hr3 : sstReadExact file (o + 8 + k.length) (v.length % 2 ^ 32) =
      some (v.take (v.length % 2 ^ 32)) := by
    have h4 := bytesAt_read file _ o hat (8 + k.length) (v.length % 2 ^ 32)
      (by have := Nat.mod_le v.length (2 ^ 32); omega)
    rw [← Nat.add_assoc] at h4
    rw [h4, hsplit2, List.drop_left' (by simp [leBytes_length]; omega)]
  rw [SsTableReader.get]
  simp only [hidx, hr1, hdec1, hr2, hdec2, hr3]

/-- C5 (amended): for every MemTable with duplicate-free keys, all keys
and values shorter than `2 ^ 32` bytes, and an entry region whose size
fits the `u64` offsets of the SSTable format, writing it with
`flush_to_path` and reopening with `SsTableReader::open` yields a reader
that returns `mem.get(k)` for every key `k`. -/
theorem c5_sst_roundtrip (mem : MemTable)
    (hnd : (mem.entries.map Prod.fst).Nodup)
    (hkv : ∀ e ∈ mem.entries, e.1.length < 2 ^ 32 ∧ e.2.length < 2 ^ 32)
    (hfits : (sstEntriesAux mem.entries 0).1.length < 2 ^ 64) :
    ∃ rd, sstOpen (sstFileBytes mem) = Except.ok rd ∧
      ∀ k, rd.get k = mem.get k := by
  refine ⟨_, sstOpen_spec mem (fun e he => (hkv e he).1) hfits, ?_⟩
  intro k
  have hIkeys : (sstEntriesAux mem.entries 0).2.map Prod.fst = mem.entries.map Prod.fst :=
    sstEntriesAux_keys mem.entries 0
  by_cases hmem : k ∈ mem.entries.map Prod.fst
  · obtain ⟨e, he, hek⟩ := List.mem_map.mp hmem
    have hkpair : (k, e.2) ∈ mem.entries := by
      rw [← hek]
      exact he
    obtain ⟨p, hpI, hpk⟩ := List.mem_map.mp (by rw [hIkeys]; exact hmem :
      k ∈ (sstEntriesAux mem.entries 0).2.map Prod.fst)
    have hppair : (k, p.2) ∈ (sstEntriesAux mem.entries 0).2 := by
      rw [← hpk]
      exact hpI
    have hfold : mapFind ((sstEntriesAux mem.entries 0).2.foldl
        (fun m e => mapInsert m e.1 e.2) []) k = some p.2 :=
      foldInsert_mem _ _ _ _ (by rw [hIkeys]; exact hnd) hppair
    have hzero : ([] : List Nat).length = 0 := rfl
    have hspec := sstEntriesAux_spec mem.entries []
      (sstIndexBytes (sstEntriesAux mem.entries 0).2 ++
        (leBytes 8 (sstEntriesAux mem.entries 0).1.length ++ leBytes 4 FOOTER_MAGIC))
    rw [hzero] at hspec
    obtain ⟨w, hwmem, hat⟩ := hspec (k, p.2) hppair
    have hfileform : [] ++ (sstEntriesAux mem.entries 0).1 ++
        (sstIndexBytes (sstEntriesAux mem.entries 0).2 ++
          (leBytes 8 (sstEntriesAux mem.entries 0).1.length ++ leBytes 4 FOOTER_MAGIC)) =
        sstFileBytes mem := by
      rw [sstFileBytes]
      simp
    rw [hfileform] at hat
    have hweq : w = e.2 := by
      have hf1 := find?_of_mem_nodup mem.entries k w hnd hwmem
      have hf2 := find?_of_mem_nodup mem.entries k e.2 hnd hkpair
      rw [hf1] at hf2
      injection hf2 with hf3
      injection hf3
    have hklen : k.length < 2 ^ 32 := by
      rw [← hek]
      exact (hkv e he).1
    have hwlen : w.length < 2 ^ 32 := by
      rw [hweq]
      exact (hkv e he).2
    have hget := sstGet_entry_parse (sstFileBytes mem) p.2 k w _ hklen hat hfold
    rw [Nat.mod_eq_of_lt hwlen, List.take_length] at hget
    rw [hget, MemTable.get, find?_of_mem_nodup mem.entries k e.2 hnd hkpair]
    rw [hweq]
    rfl
  · have hnone : mapFind ((sstEntriesAux mem.entries 0).2.foldl
        (fun m e => mapInsert m e.1 e.2) []) k = none := by
      rw [foldInsert_not_mem _ _ _ (by rw [hIkeys]; exact hmem)]
      rfl
    rw [SsTableReader.get]
    simp only [hnone]
    rw [MemTable.get, find?_key_eq_none mem.entries k hmem]
    rfl

/-- C5 amended-claim witness: the two-entry memtable
`{"a" -> "1", "b" -> "23"}` round-trips through the SSTable writer and
reader. -/
theorem c5_sst_roundtrip_witness :
    ∃ rd, sstOpen (sstFileBytes ⟨[([97], [49]), ([98], [50, 51])], 5⟩) = Except.ok rd ∧
      ∀ k, rd.get k = MemTable.get ⟨[([97], [49]), ([98], [50, 51])], 5⟩ k :=
  c5_sst_roundtrip ⟨[([97], [49]), ([98], [50, 51])], 5⟩ (by decide) (by decide)
    (by decide)

/-- C5 counterexample: a memtable with the single entry
`[97] -> 2 ^ 32 zero bytes` opens fine, but `get` returns `some []`
instead of the stored value, because `flush_to_path` wrote
`value.len() as u32 = 0` as the value length; the round trip fails for
this key. -/
theorem c5_large_value_breaks :
    sstOpen (sstFileBytes ⟨[([97], List.replicate (2 ^ 32) 0)], 1 + 2 ^ 32⟩) =
      Except.ok ⟨sstFileBytes ⟨[([97], List.replicate (2 ^ 32) 0)], 1 + 2 ^ 32⟩,
        [([97], 0)]⟩ ∧
    SsTableReader.get ⟨sstFileBytes ⟨[([97], List.replicate (2 ^ 32) 0)], 1 + 2 ^ 32⟩,
        [([97], 0)]⟩ [97] = some [] ∧
    MemTable.get ⟨[([97], List.replicate (2 ^ 32) 0)], 1 + 2 ^ 32⟩ [97] =
      some (List.replicate (2 ^ 32) 0) ∧
    ¬ (some ([] : List Nat) = some (List.replicate (2 ^ 32) 0)) := by
  have hke : ∀ e ∈ ([([97], List.replicate (2 ^ 32) 0)] :
      List (List Nat × List Nat)), e.1.length < 2 ^ 32 := by
    intro e he
    rw [List.mem_singleton] at he
    rw [he]
    show ([97] : List Nat).length < 2 ^ 32
    norm_num
  have hE : (sstEntriesAux [([97], List.replicate (2 ^ 32) 0)] 0).1 =
      sstEntryBytes [97] (List.replicate (2 ^ 32) 0) ++ [] := rfl
  have hElen : (sstEntriesAux [([97], List.replicate (2 ^ 32) 0)] 0).1.length =
      9 + 2 ^ 32 := by
    rw [hE, List.append_nil, sstEntryBytes]
    simp only [List.length_append, leBytes_length, List.length_replicate,
      List.length_cons, List.length_nil]
  have hfits : (sstEntriesAux [([97], List.replicate (2 ^ 32) 0)] 0).1.length < 2 ^ 64 := by
    rw [hElen]
    norm_num
  have hopen := sstOpen_spec ⟨[([97], List.replicate (2 ^ 32) 0)], 1 + 2 ^ 32⟩ hke hfits
  refine ⟨hopen, ?_, ?_, ?_⟩
  · have hat : bytesAt (sstFileBytes ⟨[([97], List.replicate (2 ^ 32) 0)], 1 + 2 ^ 32⟩) 0
        (sstEntryBytes [97] (List.replicate (2 ^ 32) 0)) := by
      refine ⟨[], sstIndexBytes (sstEntriesAux [([97], List.replicate (2 ^ 32) 0)] 0).2 ++
        (leBytes 8 (sstEntriesAux [([97], List.replicate (2 ^ 32) 0)] 0).1.length ++
          leBytes 4 FOOTER_MAGIC), ?_, rfl⟩
      rw [sstFileBytes, hE]
      simp only [List.append_nil, List.nil_append, List.append_assoc]
    have hget := sstGet_entry_parse
      (sstFileBytes ⟨[([97], List.replicate (2 ^ 32) 0)], 1 + 2 ^ 32⟩) 0 [97]
      (List.replicate (2 ^ 32) 0) [([97], 0)]
      (by show ([97] : List Nat).length < 2 ^ 32; norm_num) hat rfl
    rw [List.length_replicate, Nat.mod_self, List.take_zero] at hget
    exact hget
  · rfl
  · intro hcontra
    have h1 : ([] : List Nat) = List.replicate (2 ^ 32) 0 := by
      injection hcontra
    have h2 := congrArg List.length h1
    rw [List.length_nil, List.length_replicate] at h2
    exact absurd h2 (by norm_num)

/-! ### C10: flush on an empty-size memtable is a no-op -/

/-- C10: calling `LsmTree::flush` while the memtable's size counter is 0
returns `Ok` and leaves the tree unchanged: no SSTable file is created,
`next_file_id` is not incremented, and the reader list is unmodified. -/
theorem c10_flush_empty_noop (t : LsmTree) (h : t.mem.size = 0) :
    t.flush = (Except.ok (), t) ∧
    t.flush.2.dir = t.dir ∧
    t.flush.2.next_file_id = t.next_file_id ∧
    t.flush.2.sstables = t.sstables := by
  have he : t.flush = (Except.ok (), t) := by
    rw [LsmTree.flush, if_pos h]
  exact ⟨he, by rw [he], by rw [he], by rw [he]⟩

/-- C10 witness: a tree whose memtable size counter is zero. -/
theorem c10_flush_empty_noop_witness :
    (⟨⟨[], 0⟩, [], [], 5, 1024⟩ : LsmTree).flush =
      (Except.ok (), (⟨⟨[], 0⟩, [], [], 5, 1024⟩ : LsmTree)) ∧
    (⟨⟨[], 0⟩, [], [], 5, 1024⟩ : LsmTree).flush.2.dir =
      (⟨⟨[], 0⟩, [], [], 5, 1024⟩ : LsmTree).dir ∧
    (⟨⟨[], 0⟩, [], [], 5, 1024⟩ : LsmTree).flush.2.next_file_id =
      (⟨⟨[], 0⟩, [], [], 5, 1024⟩ : LsmTree).next_file_id ∧
    (⟨⟨[], 0⟩, [], [], 5, 1024⟩ : LsmTree).flush.2.sstables =
      (⟨⟨[], 0⟩, [], [], 5, 1024⟩ : LsmTree).sstables :=
  c10_flush_empty_noop ⟨⟨[], 0⟩, [], [], 5, 1024⟩ rfl

/-! ### C9: Gorilla round trip broken by the zigzag decoder -/

set_option maxRecDepth 8000 in
/-- C9 (code bug): the chunk with timestamps `[0, 2^62]` and values
`[0.0, 0.0]` does not survive `compress` followed by `decompress`.  The
encoder zigzags the delta-of-delta `2^62` to `2^63` and stores it in the
64-bit branch; the decoder computes `(val >> 1) as i64` with `val = 2^63
as i64 = i64::MIN`, an arithmetic (sign-extending) shift where zigzag
decoding needs a logical one, and returns `-2^62`, so the second
timestamp comes back as `-2^62` instead of `2^62`.  The values decode
correctly; the chunks differ. -/
theorem c9_roundtrip_fails :
    (ColumnChunk.compress ⟨[0, 4611686018427387904], [0, 0]⟩).decompress.timestamps =
      [0, -4611686018427387904] ∧
    (ColumnChunk.compress ⟨[0, 4611686018427387904], [0, 0]⟩).decompress.values =
      [0, 0] ∧
    ¬ ((ColumnChunk.compress ⟨[0, 4611686018427387904], [0, 0]⟩).decompress =
        ⟨[0, 4611686018427387904], [0, 0]⟩) := by
  refine ⟨by decide, by decide, by decide⟩

/-! ### C7: deadlock victim selection -/

/-- C7 counterexample: in the run where txn 2 holds r2, txn 1 holds r1,
txn 2 waits for r1, and txn 1 then requests r2, a wait-for cycle through
txns 1 and 2 exists at detection time (both edges are present and
`detect_deadlock` finds the cycle), yet the returned error names txn 1 —
the requester — although the youngest (highest-id) participant of the
cycle is txn 2.  The first conjunct checks the table reached by the first
three calls; the second checks that the fourth call enqueues txn 1 exactly
into the table whose edges are inspected. -/
theorem c7_deadlock_victim_not_youngest :
    (lockAcquire (lockAcquire (lockAcquire [] ⟨2⟩ "r2" LockMode.X).2
        ⟨1⟩ "r1" LockMode.X).2 ⟨2⟩ "r1" LockMode.X).2 =
      [("r1", ⟨[(⟨1⟩, LockMode.X)], [(⟨2⟩, LockMode.X)]⟩),
       ("r2", ⟨[(⟨2⟩, LockMode.X)], []⟩)] ∧
    mapInsert [("r1", (⟨[(⟨1⟩, LockMode.X)], [(⟨2⟩, LockMode.X)]⟩ : LockEntry)),
        ("r2", ⟨[(⟨2⟩, LockMode.X)], []⟩)] "r2" ⟨[(⟨2⟩, LockMode.X)], [(⟨1⟩, LockMode.X)]⟩ =
      [("r2", ⟨[(⟨2⟩, LockMode.X)], [(⟨1⟩, LockMode.X)]⟩),
       ("r1", ⟨[(⟨1⟩, LockMode.X)], [(⟨2⟩, LockMode.X)]⟩)] ∧
    wfgEdges [("r2", ⟨[(⟨2⟩, LockMode.X)], [(⟨1⟩, LockMode.X)]⟩),
        ("r1", ⟨[(⟨1⟩, LockMode.X)], [(⟨2⟩, LockMode.X)]⟩)] =
      [(⟨1⟩, ⟨2⟩), (⟨2⟩, ⟨1⟩)] ∧
    (lockAcquire [("r1", ⟨[(⟨1⟩, LockMode.X)], [(⟨2⟩, LockMode.X)]⟩),
        ("r2", ⟨[(⟨2⟩, LockMode.X)], []⟩)] ⟨1⟩ "r2" LockMode.X).1 =
      Except.error ⟨⟨1⟩⟩ ∧
    (1 : Nat) < 2 := by
  refine ⟨by decide, by decide, by decide, by rfl, by decide⟩

/-- C7 (amended): when `LockManager::lock` returns a `Deadlock` error, the
victim named by the error is always the requesting transaction itself (not
the youngest cycle participant), and that transaction's wait entry has been
removed from the resource's waiting queue in the resulting table. -/
theorem c7_deadlock_error_names_requester (tbl : LockTable) (txn : TxnId)
    (res : String) (mode : LockMode) (v : DeadlockError)
    (h : (lockAcquire tbl txn res mode).1 = Except.error v) :
    v.txn = txn ∧
    ∀ e, mapFind (lockAcquire tbl txn res mode).2 res = some e →
      ∀ p ∈ e.waiting, ¬ p.1 = txn := by
  by_cases hA : (((mapFind tbl res).getD LockEntry.default).granted.all
      (fun g => g.2.compatible mode)) = true
  · exfalso
    simp [lockAcquire, hA] at h
  · by_cases hB : detectDeadlock
        (mapInsert tbl res
          { (mapFind tbl res).getD LockEntry.default with
            waiting := ((mapFind tbl res).getD LockEntry.default).waiting ++ [(txn, mode)] })
        txn = true
    · have hv : v = ⟨txn⟩ := by
        have h2 := h
        simp [lockAcquire, hA, hB] at h2
        exact h2.symm
      refine ⟨by rw [hv], ?_⟩
      intro e he p hp
      have htbl : (lockAcquire tbl txn res mode).2 =
          unlockWait (mapInsert tbl res
            { (mapFind tbl res).getD LockEntry.default with
              waiting := ((mapFind tbl res).getD LockEntry.default).waiting ++ [(txn, mode)] })
            txn res := by
        simp [lockAcquire, hA, hB]
      rw [htbl] at he
      rw [unlockWait, mapFind_mapInsert_self, mapFind_mapInsert_self] at he
      have he2 : e.waiting =
          (((mapFind tbl res).getD LockEntry.default).waiting ++ [(txn, mode)]).filter
            (fun p => ¬ p.1 = txn) := by
        cases he2 : e with
        | mk g w =>
            rw [he2] at he
            injection he with he3
            injection he3 with hg hw
            simpa using hw.symm
      rw [he2] at hp
      simpa using (List.mem_filter.mp hp).2
    · exfalso
      simp [lockAcquire, hA, hB] at h

/-- C7 amended-claim witness: the deadlock run of the counterexample
scenario, where the error names the requester txn 1 and txn 1 no longer
waits for r2 afterwards. -/
theorem c7_deadlock_error_names_requester_witness :
    (DeadlockError.mk ⟨1⟩).txn = (⟨1⟩ : TxnId) ∧
    ∀ e, mapFind (lockAcquire [("r1", ⟨[(⟨1⟩, LockMode.X)], [(⟨2⟩, LockMode.X)]⟩),
        ("r2", ⟨[(⟨2⟩, LockMode.X)], []⟩)] ⟨1⟩ "r2" LockMode.X).2 "r2" = some e →
      ∀ p ∈ e.waiting, ¬ p.1 = (⟨1⟩ : TxnId) :=
  c7_deadlock_error_names_requester
    [("r1", ⟨[(⟨1⟩, LockMode.X)], [(⟨2⟩, LockMode.X)]⟩),
     ("r2", ⟨[(⟨2⟩, LockMode.X)], []⟩)] ⟨1⟩ "r2" LockMode.X ⟨⟨1⟩⟩ (by rfl)

/-! ### C8: duplicate granted entries -/

/-- C8 (code bug): a transaction that already holds S on r1 and requests S
again passes the compatibility check (S is compatible with S) and is pushed
onto `granted` a second time, so `granted` contains the pair
`(TxnId 1, S)` twice — the lock table invariant claimed by the spec does
not hold in the code. -/
theorem c8_duplicate_grant :
    (lockAcquire (lockAcquire [] ⟨1⟩ "r1" LockMode.S).2 ⟨1⟩ "r1" LockMode.S).2 =
      [("r1", ⟨[(⟨1⟩, LockMode.S), (⟨1⟩, LockMode.S)], []⟩)] ∧
    ∃ e, mapFind (lockAcquire (lockAcquire [] ⟨1⟩ "r1" LockMode.S).2
        ⟨1⟩ "r1" LockMode.S).2 "r1" = some e ∧ ¬ e.granted.Nodup := by
  refine ⟨by decide, ⟨[(⟨1⟩, LockMode.S), (⟨1⟩, LockMode.S)], []⟩, by decide, by decide⟩

end SerinDB
